import Mathlib

-- Shallow embedding of pymatgen/io/vasp/optics.py.
-- Python/numpy floats are modelled as exact reals; numpy arrays as Lean lists
-- (or index functions for the multi-dimensional input tensors); Python
-- exceptions as Except String.  scipy.special.erf is not available in Mathlib,
-- so the error function is an explicit function parameter (the claims settled
-- here never depend on its values).

namespace Optics

noncomputable section

-- au2ang = constants.physical_constants["atomic unit of length"][0] / 1e-10
def au2ang : ℝ := 0.529177210903

-- ryd2ev = constants.physical_constants["Rydberg constant times hc in eV"][0]
def ryd2ev : ℝ := 13.605693122994

-- edeps = 4 * np.pi * 2 * ryd2ev * au2ang
def edeps : ℝ := 4 * Real.pi * 2 * ryd2ev * au2ang

-- def get_eps_constant(structure): return edeps * np.pi / structure.volume
-- The Python float division raises ZeroDivisionError exactly when the
-- denominator is zero; the structure argument is modelled by its volume.
def get_eps_constant (volume : ℝ) : Except String ℝ :=
  if volume = 0 then .error "ZeroDivisionError: float division by zero"
  else .ok (edeps * Real.pi / volume)

-- Physicists' Hermite polynomials, as evaluated by scipy.special.eval_hermite:
-- H_0 = 1, H_1 = 2x, H_{n+2}(x) = 2x H_{n+1}(x) - 2(n+1) H_n(x).
def hermiteH : ℕ → ℝ → ℝ
  | 0, _ => 1
  | 1, x => 2 * x
  | n + 2, x => 2 * x * hermiteH (n + 1) x - 2 * (n + 1) * hermiteH n x

-- A_i = (-1)^i / ( i! 4^i sqrt(pi) )
def mpA (i : ℕ) : ℝ :=
  (-1) ^ i / (Nat.factorial i * 4 ^ i * Real.sqrt Real.pi)

-- def delta_methfessel_paxton(x, n):
--   ii = np.arange(0, n + 1); A = ...; H = eval_hermite(ii * 2, ...)
--   return np.exp(-(x * x)) * np.dot(A, H.T)
def delta_methfessel_paxton (x : ℝ) (n : ℕ) : ℝ :=
  Real.exp (-(x * x)) * ∑ i in Finset.range (n + 1), mpA i * hermiteH (2 * i) x

-- def step_methfessel_paxton(x, n):
--   ii = np.arange(1, n + 1); A = ...; H = eval_hermite(ii * 2 - 1, ...)
--   return (1.0 + erf(x)) / 2.0 - np.exp(-(x * x)) * np.dot(A, H.T)
def step_methfessel_paxton (erf : ℝ → ℝ) (x : ℝ) (n : ℕ) : ℝ :=
  (1 + erf x) / 2 -
    Real.exp (-(x * x)) * ∑ i in Finset.Icc 1 n, mpA i * hermiteH (2 * i - 1) x

-- def step_func(x, ismear):
--   if ismear == -1: return 1 / (1.0 + np.exp(-x))
--   elif ismear < 0: return 0.5 + 0.5 * special.erf(x)
--   return step_methfessel_paxton(x, ismear)
def step_func (erf : ℝ → ℝ) (x : ℝ) (ismear : ℤ) : ℝ :=
  if ismear = -1 then 1 / (1 + Real.exp (-x))
  else if ismear < 0 then 0.5 + 0.5 * erf x
  else step_methfessel_paxton erf x ismear.toNat

-- def delta_func(x, ismear):
--   if ismear == -1: return step_func(x, -1) * (1 - step_func(x, -1))
--   elif ismear < 0: return np.exp(-(x * x)) / np.sqrt(np.pi)
--   return delta_methfessel_paxton(x, ismear)
def delta_func (erf : ℝ → ℝ) (x : ℝ) (ismear : ℤ) : ℝ :=
  if ismear = -1 then step_func erf x (-1) * (1 - step_func erf x (-1))
  else if ismear < 0 then Real.exp (-(x * x)) / Real.sqrt Real.pi
  else delta_methfessel_paxton x ismear.toNat

-- Number of points of np.arange(start, stop, step): ceil((stop - start) / step),
-- clamped at zero.
def arangeLen (start stop step : ℝ) : ℕ :=
  (Int.ceil ((stop - start) / step)).toNat

-- np.arange(start, stop, step); a zero step raises ZeroDivisionError in numpy.
def arange (start stop step : ℝ) : Except String (List ℝ) :=
  if step = 0 then .error "ZeroDivisionError: division by zero in arange"
  else .ok ((List.range (arangeLen start stop step)).map fun (i : ℕ) => start + (i : ℝ) * step)

-- In-place numpy broadcast subtraction xs -= x0 for one-dimensional arrays:
-- legal when x0 has length 1 (scalar-like broadcast) or the same length as xs.
def inPlaceSub (xs x0 : List ℝ) : Except String (List ℝ) :=
  if x0.length = 1 then .ok (xs.map fun t => t - x0.headI)
  else if x0.length = xs.length then .ok (List.zipWith (fun a b => a - b) xs x0)
  else .error "operands could not be broadcast together (inplace sub)"

-- numpy broadcast multiplication xs * ys for one-dimensional arrays.
def broadcastMul (xs ys : List ℝ) : Except String (List ℝ) :=
  if xs.length = ys.length then .ok (List.zipWith (fun a b => a * b) xs ys)
  else if ys.length = 1 then .ok (xs.map fun a => a * ys.headI)
  else if xs.length = 1 then .ok (ys.map fun b => xs.headI * b)
  else .error "operands could not be broadcast together (mul)"

-- In-place numpy broadcast addition xs += ys for complex one-dimensional arrays.
def inPlaceAddC (xs ys : List ℂ) : Except String (List ℂ) :=
  if ys.length = 1 then .ok (xs.map fun a => a + ys.headI)
  else if ys.length = xs.length then .ok (List.zipWith (fun a b => a + b) xs ys)
  else .error "operands could not be broadcast together (inplace add)"

-- dfun = np.zeros_like(xgrid); dfun[1:] = (sfun[1:] - sfun[:-1]) / dx
def deltaFromStep (sfun : List ℝ) (dx : ℝ) : List ℝ :=
  match sfun with
  | [] => []
  | s :: rest =>
      0 :: List.zipWith (fun a b => (a - b) / dx) rest ((s :: rest).dropLast)

-- def get_step(x0, sigma, nx, dx, ismear):
--   xgrid = np.arange(0, nx * dx, dx); xgrid -= x0
--   x_scaled = (xgrid + (dx / 2)) / sigma
--   return step_func(x_scaled, ismear)
-- Here x0 is the scalar float of the declared signature.
def get_step (erf : ℝ → ℝ) (x0 sigma : ℝ) (nx : ℤ) (dx : ℝ) (ismear : ℤ) :
    Except String (List ℝ) := do
  let xgrid0 ← arange 0 (nx * dx) dx
  let xgrid := xgrid0.map fun t => t - x0
  let x_scaled := xgrid.map fun t => (t + dx / 2) / sigma
  .ok (x_scaled.map fun t => step_func erf t ismear)

-- def get_delta(x0, sigma, nx, dx, ismear):
--   xgrid = np.arange(0, nx * dx, dx); xgrid -= x0
--   x_scaled = (xgrid + (dx / 2)) / sigma
--   sfun = step_func(x_scaled, ismear)
--   dfun = np.zeros_like(xgrid); dfun[1:] = (sfun[1:] - sfun[:-1]) / dx
--   return dfun
-- Scalar x0, as in the declared signature.
def get_delta (erf : ℝ → ℝ) (x0 sigma : ℝ) (nx : ℤ) (dx : ℝ) (ismear : ℤ) :
    Except String (List ℝ) := do
  let xgrid0 ← arange 0 (nx * dx) dx
  let xgrid := xgrid0.map fun t => t - x0
  let x_scaled := xgrid.map fun t => (t + dx / 2) / sigma
  let sfun := x_scaled.map fun t => step_func erf t ismear
  .ok (deltaFromStep sfun dx)

-- get_delta as actually invoked from epsilon_imag, where the argument x0 is
-- the numpy array eigs[jb, ik] - eigs[ib, ik] of length nspin; the in-place
-- subtraction xgrid -= x0 then follows numpy broadcasting rules.
def get_delta_vec (erf : ℝ → ℝ) (x0 : List ℝ) (sigma : ℝ) (nx : ℤ) (dx : ℝ)
    (ismear : ℤ) : Except String (List ℝ) := do
  let xgrid0 ← arange 0 (nx * dx) dx
  let xgrid ← inPlaceSub xgrid0 x0
  let x_scaled := xgrid.map fun t => (t + dx / 2) / sigma
  let sfun := x_scaled.map fun t => step_func erf t ismear
  .ok (deltaFromStep sfun dx)

-- Row-major list of index quadruples produced by np.ndindex(cder.shape[:4]).
def ndindex4 (n1 n2 n3 n4 : ℕ) : List (ℕ × ℕ × ℕ × ℕ) :=
  (List.range n1).flatMap fun i1 =>
    (List.range n2).flatMap fun i2 =>
      (List.range n3).flatMap fun i3 =>
        (List.range n4).map fun i4 => (i1, i2, i3, i4)

-- itertools.product(range(3), range(3)), in row-major order.
def dirPairs : List (ℕ × ℕ) :=
  (List.range 3).flatMap fun i => (List.range 3).map fun j => (i, j)

-- One iteration of the inner quadruple loop of epsilon_imag, for direction
-- pair (idir, jdir), updating the accumulator epsdd.  The input tensors are
-- modelled as index functions; nbands, nk, nspin are cder.shape[:4] =
-- (nbands, nbands, nk, nspin).  Note that, as in the source, eigs is indexed
-- with only two indices (band, kpoint), so fermi_w_i, fermi_w_j, weight and
-- decel are numpy arrays of length nspin (the spin axis is never indexed by
-- the loop variable ispin); rspin = 3 - cder.shape[3] is a loop constant,
-- recomputed here with the same value on every iteration.
def epsddStep (erf : ℝ → ℝ) (nspin : ℕ) (cder : ℕ → ℕ → ℕ → ℕ → ℕ → ℂ)
    (eigs : ℕ → ℕ → ℕ → ℝ) (norm_kweights : List ℝ) (efermi : ℝ) (nedos : ℤ)
    (deltae : ℝ) (ismear : ℤ) (sigma : ℝ) (idir jdir : ℕ)
    (epsdd : List ℂ) (q : ℕ × ℕ × ℕ × ℕ) : Except String (List ℂ) :=
  match q with
  | (ib, jb, ik, ispin) => do
    let fermi_w_i := (List.range nspin).map fun s =>
      step_func erf ((eigs ib ik s - efermi) / sigma) ismear
    let fermi_w_j := (List.range nspin).map fun s =>
      step_func erf ((eigs jb ik s - efermi) / sigma) ismear
    let rspin : ℝ := 3 - (nspin : ℝ)
    let weight := List.zipWith
      (fun wj wi => (wj - wi) * rspin * norm_kweights.getD ik 0) fermi_w_j fermi_w_i
    let decel := (List.range nspin).map fun s => eigs jb ik s - eigs ib ik s
    let A : ℂ := cder ib jb ik ispin idir * (starRingEnd ℂ) (cder ib jb ik ispin jdir)
    let dfun ← get_delta_vec erf decel sigma nedos deltae ismear
    let dw ← broadcastMul dfun weight
    let smeared := dw.map fun (r : ℝ) => (r : ℂ) * A
    inPlaceAddC epsdd smeared

-- The Python for-loop over np.ndindex, threading the accumulator and
-- aborting on the first raised exception.
def accumLoop {α : Type} (f : List ℂ → α → Except String (List ℂ)) :
    List ℂ → List α → Except String (List ℂ)
  | eps, [] => .ok eps
  | eps, x :: xs =>
    match f eps x with
    | .ok eps2 => accumLoop f eps2 xs
    | .error e => .error e

-- The spectrum accumulated by epsilon_imag for direction pair (idir, jdir):
-- epsdd = np.zeros_like(egrid, dtype=complex) followed by the quadruple loop;
-- egridLen is the length of the energy grid.
def epsddFor (erf : ℝ → ℝ) (nbands nk nspin : ℕ)
    (cder : ℕ → ℕ → ℕ → ℕ → ℕ → ℂ) (eigs : ℕ → ℕ → ℕ → ℝ)
    (norm_kweights : List ℝ) (efermi : ℝ) (nedos : ℤ) (deltae : ℝ)
    (ismear : ℤ) (sigma : ℝ) (egridLen : ℕ) (idir jdir : ℕ) :
    Except String (List ℂ) :=
  accumLoop
    (epsddStep erf nspin cder eigs norm_kweights efermi nedos deltae ismear
      sigma idir jdir)
    (List.replicate egridLen 0) (ndindex4 nbands nbands nk nspin)

-- The generator loop over direction pairs: each requested element either
-- yields (egrid, epsdd) or propagates the exception raised while computing it.
def pairLoop (egrid : List ℝ) (f : ℕ → ℕ → Except String (List ℂ)) :
    List (ℕ × ℕ) → Except String (List (List ℝ × List ℂ))
  | [] => .ok []
  | p :: ps =>
    match f p.1 p.2 with
    | .ok eps =>
      match pairLoop egrid f ps with
      | .ok rest => .ok ((egrid, eps) :: rest)
      | .error e => .error e
    | .error e => .error e

-- def epsilon_imag(cder, eigs, kweights, efermi, nedos, deltae, ismear, sigma):
--   norm_kweights = np.array(kweights) / np.sum(kweights)
--   egrid = np.arange(0, nedos * deltae, deltae)
--   eigs_shifted = eigs - efermi
--   rspin = 3 - cder.shape[3]
--   for idir, jdir in itertools.product(range(3), range(3)):
--     epsdd = np.zeros_like(egrid, dtype=np.complex128)
--     for ib, jb, ik, ispin in np.ndindex(cder.shape[:4]): ...
--     yield egrid, epsdd
-- The generator is modelled as the list of its yields, with a raised
-- exception cutting the whole sequence short.
def epsilon_imag (erf : ℝ → ℝ) (nbands nk nspin : ℕ)
    (cder : ℕ → ℕ → ℕ → ℕ → ℕ → ℂ) (eigs : ℕ → ℕ → ℕ → ℝ)
    (kweights : List ℝ) (efermi : ℝ) (nedos : ℤ) (deltae : ℝ)
    (ismear : ℤ) (sigma : ℝ) : Except String (List (List ℝ × List ℂ)) := do
  let norm_kweights := kweights.map fun w => w / kweights.sum
  let egrid ← arange 0 (nedos * deltae) deltae
  pairLoop egrid
    (epsddFor erf nbands nk nspin cder eigs norm_kweights efermi nedos deltae
      ismear sigma egrid.length)
    dirPairs

-- The per-spin accumulation step as described by section 4.3 of the
-- specification: the occupation weights and the transition energy are scalars
-- computed for the current spin channel ispin, indexing eigs[band, kpoint,
-- ispin].  This definition follows the specification text and exists only to
-- be compared with epsddStep, which is translated from the source.
def epsddStepSpec (erf : ℝ → ℝ) (nspin : ℕ) (cder : ℕ → ℕ → ℕ → ℕ → ℕ → ℂ)
    (eigs : ℕ → ℕ → ℕ → ℝ) (norm_kweights : List ℝ) (efermi : ℝ) (nedos : ℤ)
    (deltae : ℝ) (ismear : ℤ) (sigma : ℝ) (idir jdir : ℕ)
    (epsdd : List ℂ) (q : ℕ × ℕ × ℕ × ℕ) : Except String (List ℂ) :=
  match q with
  | (ib, jb, ik, ispin) => do
    let step_i := step_func erf ((eigs ib ik ispin - efermi) / sigma) ismear
    let step_j := step_func erf ((eigs jb ik ispin - efermi) / sigma) ismear
    let rspin : ℝ := 3 - (nspin : ℝ)
    let weight := (step_j - step_i) * rspin * norm_kweights.getD ik 0
    let decel := eigs jb ik ispin - eigs ib ik ispin
    let A : ℂ := cder ib jb ik ispin idir * (starRingEnd ℂ) (cder ib jb ik ispin jdir)
    let dfun ← get_delta erf decel sigma nedos deltae ismear
    let smeared := (dfun.map fun (r : ℝ) => r * weight).map fun (r : ℝ) => (r : ℂ) * A
    inPlaceAddC epsdd smeared

-- Per-spin spectrum accumulation for one direction pair, following the
-- specification text (companion of epsddFor).
def epsddForSpec (erf : ℝ → ℝ) (nbands nk nspin : ℕ)
    (cder : ℕ → ℕ → ℕ → ℕ → ℕ → ℂ) (eigs : ℕ → ℕ → ℕ → ℝ)
    (norm_kweights : List ℝ) (efermi : ℝ) (nedos : ℤ) (deltae : ℝ)
    (ismear : ℤ) (sigma : ℝ) (egridLen : ℕ) (idir jdir : ℕ) :
    Except String (List ℂ) :=
  accumLoop
    (epsddStepSpec erf nspin cder eigs norm_kweights efermi nedos deltae ismear
      sigma idir jdir)
    (List.replicate egridLen 0) (ndindex4 nbands nbands nk nspin)

-- The whole spectrum computation following the specification text
-- (companion of epsilon_imag).
def epsilon_imag_spec (erf : ℝ → ℝ) (nbands nk nspin : ℕ)
    (cder : ℕ → ℕ → ℕ → ℕ → ℕ → ℂ) (eigs : ℕ → ℕ → ℕ → ℝ)
    (kweights : List ℝ) (efermi : ℝ) (nedos : ℤ) (deltae : ℝ)
    (ismear : ℤ) (sigma : ℝ) : Except String (List (List ℝ × List ℂ)) := do
  let norm_kweights := kweights.map fun w => w / kweights.sum
  let egrid ← arange 0 (nedos * deltae) deltae
  pairLoop egrid
    (epsddForSpec erf nbands nk nspin cder eigs norm_kweights efermi nedos
      deltae ismear sigma egrid.length)
    dirPairs

-- Boolean success observer for Except values.
def okB {α : Type} : Except String α → Bool
  | .ok _ => true
  | .error _ => false

-- Length of a successfully returned array (0 on failure).
def lenOf {α : Type} : Except String (List α) → ℕ
  | .ok l => l.length
  | .error _ => 0

-- The successfully returned real array ([] on failure).
def okValR : Except String (List ℝ) → List ℝ
  | .ok l => l
  | .error _ => []

-- The successfully returned complex array ([] on failure).
def okValC : Except String (List ℂ) → List ℂ
  | .ok l => l
  | .error _ => []

-- The successfully returned scalar (0 on failure).
def okValReal : Except String ℝ → ℝ
  | .ok x => x
  | .error _ => 0

-- Number of yielded (energy grid, spectrum) pairs (0 if the generator raised).
def yieldCount : Except String (List (List ℝ × List ℂ)) → ℕ
  | .ok l => l.length
  | .error _ => 0

-- The energy grids of the yielded pairs, in order.
def gridsOf : Except String (List (List ℝ × List ℂ)) → List (List ℝ)
  | .ok l => l.map Prod.fst
  | .error _ => []

-- The spectra of the yielded pairs, in order.
def specsOf : Except String (List (List ℝ × List ℂ)) → List (List ℂ)
  | .ok l => l.map Prod.snd
  | .error _ => []

-- A numpy array object: either a real or a complex one-dimensional buffer
-- (multi-dimensional arrays are stored flattened in row-major order).
inductive NpArr where
  | rA : List ℝ → NpArr
  | cA : List ℂ → NpArr

-- The heap of array objects; an array's id is its position, allocation
-- appends, and in-place numpy operations overwrite the buffer at an id.
def Heap := List NpArr

def readA (h : Heap) (i : ℕ) : NpArr := List.getD h i (NpArr.rA [])

def allocA (h : Heap) (a : NpArr) : Heap × ℕ := (List.append h [a], List.length h)

def writeA (h : Heap) (i : ℕ) (a : NpArr) : Heap := List.set h i a

def asR : NpArr → List ℝ
  | .rA l => l
  | .cA _ => []

def asC : NpArr → List ℂ
  | .cA l => l
  | .rA _ => []

-- Row-major flattened read of cder[ib, jb, ik, ispin, d] from a buffer of
-- shape (nbands, nbands, nk, nspin, 3).
def cderAt (l : List ℂ) (nbands nk nspin : ℕ) (ib jb ik ispin d : ℕ) : ℂ :=
  l.getD ((((ib * nbands + jb) * nk + ik) * nspin + ispin) * 3 + d) 0

-- Row-major flattened read of eigs[b, ik, s] from a buffer of shape
-- (nbands, nk, nspin).
def eigsAt (l : List ℝ) (nk nspin : ℕ) (b ik s : ℕ) : ℝ :=
  l.getD ((b * nk + ik) * nspin + s) 0

-- get_delta against the heap: np.arange allocates xgrid, xgrid -= x0 writes
-- it in place, dfun = np.zeros_like(xgrid) allocates, dfun[1:] = ... writes
-- it in place; the id of dfun is returned.
def get_delta_heap (erf : ℝ → ℝ) (x0 : List ℝ) (sigma : ℝ) (nx : ℤ) (dx : ℝ)
    (ismear : ℤ) (h : Heap) : Heap × Except String ℕ :=
  match arange 0 (nx * dx) dx with
  | .error e => (h, .error e)
  | .ok g =>
    match allocA h (.rA g) with
    | (h1, xgridId) =>
      match inPlaceSub g x0 with
      | .error e => (h1, .error e)
      | .ok xg =>
        let h2 := writeA h1 xgridId (.rA xg)
        let x_scaled := xg.map fun t => (t + dx / 2) / sigma
        let sfun := x_scaled.map fun t => step_func erf t ismear
        match allocA h2 (.rA (xg.map fun _ => 0)) with
        | (h3, dfunId) =>
          (writeA h3 dfunId (.rA (deltaFromStep sfun dx)), .ok dfunId)

-- One inner-loop iteration of epsilon_imag against the heap.  cder is read
-- from id 0, eigs from id 1; eigsShiftId, nkwId and epsddId are the ids of
-- eigs_shifted, norm_kweights and the current accumulator; the only in-place
-- write of the iteration itself is epsdd += smeared.
def epsddStepHeap (erf : ℝ → ℝ) (nbands nk nspin : ℕ) (efermi : ℝ)
    (nedos : ℤ) (deltae : ℝ) (ismear : ℤ) (sigma : ℝ) (idir jdir : ℕ)
    (eigsShiftId nkwId epsddId : ℕ) (h : Heap) (q : ℕ × ℕ × ℕ × ℕ) :
    Heap × Except String Unit :=
  match q with
  | (ib, jb, ik, ispin) =>
    let cderL := asC (readA h 0)
    let eigsL := asR (readA h 1)
    let esL := asR (readA h eigsShiftId)
    let nkw := asR (readA h nkwId)
    let fermi_w_i := (List.range nspin).map fun s =>
      step_func erf (eigsAt esL nk nspin ib ik s / sigma) ismear
    let fermi_w_j := (List.range nspin).map fun s =>
      step_func erf (eigsAt esL nk nspin jb ik s / sigma) ismear
    let rspin : ℝ := 3 - (nspin : ℝ)
    let weight := List.zipWith
      (fun wj wi => (wj - wi) * rspin * nkw.getD ik 0) fermi_w_j fermi_w_i
    let decel := (List.range nspin).map fun s =>
      eigsAt eigsL nk nspin jb ik s - eigsAt eigsL nk nspin ib ik s
    let A : ℂ := cderAt cderL nbands nk nspin ib jb ik ispin idir *
      (starRingEnd ℂ) (cderAt cderL nbands nk nspin ib jb ik ispin jdir)
    match get_delta_heap erf decel sigma nedos deltae ismear h with
    | (h1, .error e) => (h1, .error e)
    | (h1, .ok dfunId) =>
      let dfun := asR (readA h1 dfunId)
      match broadcastMul dfun weight with
      | .error e => (h1, .error e)
      | .ok dw =>
        let smeared := dw.map fun (r : ℝ) => (r : ℂ) * A
        let epsdd := asC (readA h1 epsddId)
        match inPlaceAddC epsdd smeared with
        | .error e => (h1, .error e)
        | .ok eps2 => (writeA h1 epsddId (.cA eps2), .ok ())

-- The inner quadruple for-loop against the heap.
def heapLoop {α : Type} (f : Heap → α → Heap × Except String Unit) :
    Heap → List α → Heap × Except String Unit
  | h, [] => (h, .ok ())
  | h, x :: xs =>
    match f h x with
    | (h2, .ok _) => heapLoop f h2 xs
    | (h2, .error e) => (h2, .error e)

-- One direction pair against the heap: allocate the fresh accumulator
-- epsdd = np.zeros_like(egrid, dtype=complex), run the quadruple loop, and
-- yield the accumulator's id.
def pairHeap (erf : ℝ → ℝ) (nbands nk nspin : ℕ) (efermi : ℝ) (nedos : ℤ)
    (deltae : ℝ) (ismear : ℤ) (sigma : ℝ) (eigsShiftId nkwId egridLen : ℕ)
    (h : Heap) (p : ℕ × ℕ) : Heap × Except String ℕ :=
  match allocA h (.cA (List.replicate egridLen 0)) with
  | (h1, epsddId) =>
    match heapLoop
        (epsddStepHeap erf nbands nk nspin efermi nedos deltae ismear sigma
          p.1 p.2 eigsShiftId nkwId epsddId)
        h1 (ndindex4 nbands nbands nk nspin) with
    | (h2, .ok _) => (h2, .ok epsddId)
    | (h2, .error e) => (h2, .error e)

-- The generator loop over direction pairs against the heap, collecting the
-- ids of the yielded accumulators.
def pairsLoopHeap (g : Heap → ℕ × ℕ → Heap × Except String ℕ) :
    Heap → List (ℕ × ℕ) → Heap × Except String (List ℕ)
  | h, [] => (h, .ok [])
  | h, p :: ps =>
    match g h p with
    | (h2, .ok sid) =>
      match pairsLoopHeap g h2 ps with
      | (h3, .ok rest) => (h3, .ok (sid :: rest))
      | (h3, .error e) => (h3, .error e)
    | (h2, .error e) => (h2, .error e)

-- epsilon_imag against the heap.  The caller-supplied inputs live at fixed
-- ids: cder at 0, eigs at 1, kweights at 2.  norm_kweights, egrid and
-- eigs_shifted are freshly allocated (in source order, lines 140-142); the
-- result is the id of the shared egrid object and the ids of the 9 yielded
-- accumulators.
def epsilon_imag_heap (erf : ℝ → ℝ) (nbands nk nspin : ℕ) (efermi : ℝ)
    (nedos : ℤ) (deltae : ℝ) (ismear : ℤ) (sigma : ℝ) (h : Heap) :
    Heap × Except String (ℕ × List ℕ) :=
  let kwL := asR (readA h 2)
  match allocA h (.rA (kwL.map fun w => w / kwL.sum)) with
  | (h1, nkwId) =>
    match arange 0 (nedos * deltae) deltae with
    | .error e => (h1, .error e)
    | .ok eg =>
      match allocA h1 (.rA eg) with
      | (h2, egridId) =>
        let eigsL := asR (readA h2 1)
        match allocA h2 (.rA (eigsL.map fun t => t - efermi)) with
        | (h3, eigsShiftId) =>
          match pairsLoopHeap
              (pairHeap erf nbands nk nspin efermi nedos deltae ismear sigma
                eigsShiftId nkwId eg.length)
              h3 dirPairs with
          | (h4, .ok sids) => (h4, .ok (egridId, sids))
          | (h4, .error e) => (h4, .error e)

-- A heap extends another while leaving every cell below n untouched.
def presBelow (n : ℕ) (h h2 : Heap) : Prop :=
  List.length h ≤ List.length h2 ∧ ∀ i, i < n → readA h2 i = readA h i

-- Same, but the designated accumulator cell j may change.
def presExcept (n j : ℕ) (h h2 : Heap) : Prop :=
  List.length h ≤ List.length h2 ∧
    ∀ i, i < n → i ≠ j → readA h2 i = readA h i

-- Helper lemmas ------------------------------------------------------------

theorem bindOk {α β : Type} (a : α) (f : α → Except String β) :
    (Except.ok (ε := String) a >>= f) = f a := rfl

theorem bindErr {α β : Type} (e : String) (f : α → Except String β) :
    (Except.error (α := α) e >>= f) = .error e := rfl

theorem arange_ok (start stop step : ℝ) (h : step ≠ 0) :
    arange start stop step =
      .ok ((List.range (arangeLen start stop step)).map fun (i : ℕ) => start + (i : ℝ) * step) := by
  simp [arange, h]

theorem arangeLen_int (n : ℤ) (dx : ℝ) (h : dx ≠ 0) :
    arangeLen 0 ((n : ℝ) * dx) dx = n.toNat := by
  unfold arangeLen
  rw [sub_zero, mul_div_assoc, div_self h, mul_one, Int.ceil_intCast]

theorem deltaFromStep_length (s : List ℝ) (dx : ℝ) :
    (deltaFromStep s dx).length = s.length := by
  cases s with
  | nil => rfl
  | cons a rest => simp [deltaFromStep]

theorem get_step_eq (erf : ℝ → ℝ) (x0 sigma : ℝ) (nx : ℤ) (dx : ℝ) (ismear : ℤ)
    (h : dx ≠ 0) :
    get_step erf x0 sigma nx dx ismear =
      .ok (((((List.range (arangeLen 0 (nx * dx) dx)).map fun (i : ℕ) =>
          (0 : ℝ) + (i : ℝ) * dx).map fun t => t - x0).map fun t =>
            (t + dx / 2) / sigma).map fun t => step_func erf t ismear) := by
  rw [get_step, arange_ok 0 (nx * dx) dx h, bindOk]

theorem get_delta_eq (erf : ℝ → ℝ) (x0 sigma : ℝ) (nx : ℤ) (dx : ℝ) (ismear : ℤ)
    (h : dx ≠ 0) :
    get_delta erf x0 sigma nx dx ismear =
      .ok (deltaFromStep
        (((((List.range (arangeLen 0 (nx * dx) dx)).map fun (i : ℕ) =>
          (0 : ℝ) + (i : ℝ) * dx).map fun t => t - x0).map fun t =>
            (t + dx / 2) / sigma).map fun t => step_func erf t ismear) dx) := by
  rw [get_delta, arange_ok 0 (nx * dx) dx h, bindOk]

theorem deltaFromStep_sum_cons (dx : ℝ) (hdx : dx ≠ 0) :
    ∀ (l : List ℝ) (a : ℝ),
      (deltaFromStep (a :: l) dx).sum * dx = (a :: l).getLastD 0 - a := by
  intro l
  induction l with
  | nil => intro a; simp [deltaFromStep]
  | cons b t ih =>
    intro a
    have hstep : deltaFromStep (a :: b :: t) dx =
        0 :: (b - a) / dx ::
          List.zipWith (fun x y => (x - y) / dx) t ((b :: t).dropLast) := by
      simp [deltaFromStep]
    have hstep2 : deltaFromStep (b :: t) dx =
        0 :: List.zipWith (fun x y => (x - y) / dx) t ((b :: t).dropLast) := by
      simp [deltaFromStep]
    have hsum : (deltaFromStep (a :: b :: t) dx).sum =
        (b - a) / dx + (deltaFromStep (b :: t) dx).sum := by
      rw [hstep, hstep2]; simp [List.sum_cons]
    have hlast : (a :: b :: t).getLastD 0 = (b :: t).getLastD 0 := by
      simp [List.getLastD_cons]
    calc (deltaFromStep (a :: b :: t) dx).sum * dx
        = (b - a) / dx * dx + (deltaFromStep (b :: t) dx).sum * dx := by
          rw [hsum]; ring
      _ = (b - a) + ((b :: t).getLastD 0 - b) := by
          rw [div_mul_cancel₀ _ hdx, ih b]
      _ = (a :: b :: t).getLastD 0 - a := by rw [hlast]; ring

theorem deltaFromStep_getD (s : List ℝ) (dx : ℝ) (k : ℕ) (h1 : 1 ≤ k)
    (hk : k < s.length) :
    (deltaFromStep s dx).getD k 0 = (s.getD k 0 - s.getD (k - 1) 0) / dx := by
  cases s with
  | nil => simp at hk
  | cons a rest =>
    obtain ⟨j, rfl⟩ : ∃ j, k = j + 1 := ⟨k - 1, by omega⟩
    have hj : j < rest.length := by simpa using hk
    have hj2 : j < ((a :: rest).dropLast).length := by
      simp only [List.length_dropLast, List.length_cons]; omega
    have hz : j < (List.zipWith (fun x y => (x - y) / dx) rest
        ((a :: rest).dropLast)).length := by
      rw [List.length_zipWith]; omega
    show (deltaFromStep (a :: rest) dx).getD (j + 1) 0 = _
    simp only [Nat.add_sub_cancel]
    rw [deltaFromStep, List.getD_cons_succ, List.getD_eq_getElem _ _ hz,
      List.getElem_zipWith]
    have e1 : rest[j] = (a :: rest).getD (j + 1) 0 := by
      rw [List.getD_cons_succ, List.getD_eq_getElem _ _ hj]
    have e2 : ((a :: rest).dropLast)[j] = (a :: rest).getD j 0 := by
      rw [List.getD_eq_getElem _ _ (by simp; omega), List.getElem_dropLast]
    rw [e1, e2]

theorem edeps_pi_pos : 0 < edeps * Real.pi := by
  rw [edeps, ryd2ev, au2ang]
  positivity

-- Claim C8 -----------------------------------------------------------------

/-- C8: for every real x, the Methfessel-Paxton delta of order 0 equals the
Gaussian delta exp(-x^2)/sqrt(pi): the order-0 sum reduces to the single term
A_0 H_0(x) = 1/sqrt(pi), so delta_func at ismear = 0 agrees with the Gaussian
branch (ismear = -2). -/
theorem mp0_delta_eq_gaussian (erf : ℝ → ℝ) (x : ℝ) :
    delta_func erf x 0 = Real.exp (-(x * x)) / Real.sqrt Real.pi ∧
    delta_func erf x 0 = delta_func erf x (-2) := by
  have h0 : delta_func erf x 0 = Real.exp (-(x * x)) / Real.sqrt Real.pi := by
    rw [delta_func]
    norm_num
    rw [delta_methfessel_paxton]
    norm_num [Finset.sum_range_one, mpA, hermiteH, mul_one_div]
    ring
  refine ⟨h0, ?_⟩
  rw [h0, delta_func]
  norm_num

-- Claim C9 -----------------------------------------------------------------

/-- C9 (amended): get_eps_constant returns 4*pi*2*ryd2ev*au2ang*pi/volume, is
strictly positive and strictly decreasing for volume > 0, raises
ZeroDivisionError at volume = 0; for volume < 0 it does NOT fail but returns a
strictly negative value. -/
theorem eps_constant_props (v w : ℝ) :
    (v ≠ 0 → get_eps_constant v =
      .ok (4 * Real.pi * 2 * ryd2ev * au2ang * Real.pi / v)) ∧
    (0 < v → 0 < okValReal (get_eps_constant v)) ∧
    (0 < v → v < w →
      okValReal (get_eps_constant w) < okValReal (get_eps_constant v)) ∧
    get_eps_constant 0 = .error "ZeroDivisionError: float division by zero" ∧
    (v < 0 → okB (get_eps_constant v) = true ∧
      okValReal (get_eps_constant v) < 0) := by
  have hval : ∀ u : ℝ, u ≠ 0 →
      okValReal (get_eps_constant u) = edeps * Real.pi / u := by
    intro u hu; simp [get_eps_constant, hu, okValReal]
  refine ⟨?_, ?_, ?_, ?_, ?_⟩
  · intro hv
    simp only [get_eps_constant, hv, if_false, edeps]
  · intro hv
    rw [hval v (ne_of_gt hv)]
    exact div_pos edeps_pi_pos hv
  · intro hv hvw
    rw [hval v (ne_of_gt hv), hval w (ne_of_gt (lt_trans hv hvw))]
    exact div_lt_div_of_pos_left edeps_pi_pos hv hvw
  · simp [get_eps_constant]
  · intro hv
    refine ⟨by simp [get_eps_constant, ne_of_lt hv, okB], ?_⟩
    rw [hval v (ne_of_lt hv)]
    exact div_neg_of_pos_of_neg edeps_pi_pos hv

/-- C9 counterexample: at volume = -1 (a volume <= 0), get_eps_constant does
not fail and is defined: it returns the value -(edeps * pi), refuting the
claim that the function fails or is undefined for every volume <= 0. -/
theorem eps_constant_negative_volume :
    get_eps_constant (-1) = .ok (-(edeps * Real.pi)) ∧
    okB (get_eps_constant (-1)) = true := by
  constructor
  · have h : (-1 : ℝ) ≠ 0 := by norm_num
    simp only [get_eps_constant, h, if_false]
    rw [div_neg, div_one]
  · simp [get_eps_constant, okB]

/-- C9 witness: the amended theorem instantiated at volumes 1, 2 and -1. -/
theorem eps_constant_props_witness :
    ((1 : ℝ) ≠ 0 ∧ get_eps_constant 1 =
      .ok (4 * Real.pi * 2 * ryd2ev * au2ang * Real.pi / 1)) ∧
    ((0 : ℝ) < 1 ∧ 0 < okValReal (get_eps_constant 1)) ∧
    ((1 : ℝ) < 2 ∧
      okValReal (get_eps_constant 2) < okValReal (get_eps_constant 1)) ∧
    ((-2 : ℝ) < 0 ∧ okB (get_eps_constant (-2)) = true ∧
      okValReal (get_eps_constant (-2)) < 0) :=
  ⟨⟨by norm_num, (eps_constant_props 1 2).1 (by norm_num)⟩,
   ⟨by norm_num, (eps_constant_props 1 2).2.1 (by norm_num)⟩,
   ⟨by norm_num, (eps_constant_props 1 2).2.2.1 (by norm_num) (by norm_num)⟩,
   ⟨by norm_num, (eps_constant_props (-2) 2).2.2.2.2 (by norm_num)⟩⟩

-- Claim C4 -----------------------------------------------------------------

/-- C4: for nx >= 1, dx > 0, sigma > 0 and any smearing scheme, get_step and
get_delta return arrays of length exactly nx, and the underlying grid
np.arange(0, nx*dx, dx) has exactly nx points (exact real arithmetic). -/
theorem grid_length_nx (erf : ℝ → ℝ) (x0 sigma : ℝ) (nx : ℤ) (dx : ℝ)
    (ismear : ℤ) (hnx : 1 ≤ nx) (hdx : 0 < dx) (hsig : 0 < sigma) :
    okB (get_step erf x0 sigma nx dx ismear) = true ∧
    lenOf (get_step erf x0 sigma nx dx ismear) = nx.toNat ∧
    okB (get_delta erf x0 sigma nx dx ismear) = true ∧
    lenOf (get_delta erf x0 sigma nx dx ismear) = nx.toNat ∧
    okB (arange 0 (nx * dx) dx) = true ∧
    lenOf (arange 0 (nx * dx) dx) = nx.toNat := by
  have hdx0 : dx ≠ 0 := ne_of_gt hdx
  rw [get_step_eq erf x0 sigma nx dx ismear hdx0,
    get_delta_eq erf x0 sigma nx dx ismear hdx0, arange_ok 0 (nx * dx) dx hdx0]
  refine ⟨rfl, ?_, rfl, ?_, rfl, ?_⟩ <;>
    simp only [lenOf, List.length_map, deltaFromStep_length, List.length_range,
      arangeLen_int nx dx hdx0]

/-- C4 witness: instantiated at nx = 3, dx = 1, sigma = 1. -/
theorem grid_length_nx_witness :
    ((1 : ℤ) ≤ 3 ∧ (0 : ℝ) < 1) ∧
    okB (get_step (fun _ => 0) 0 1 3 1 (-2)) = true ∧
    lenOf (get_step (fun _ => 0) 0 1 3 1 (-2)) = (3 : ℤ).toNat ∧
    okB (get_delta (fun _ => 0) 0 1 3 1 (-2)) = true ∧
    lenOf (get_delta (fun _ => 0) 0 1 3 1 (-2)) = (3 : ℤ).toNat :=
  ⟨⟨by norm_num, by norm_num⟩,
   (grid_length_nx (fun _ => 0) 0 1 3 1 (-2) (by norm_num) (by norm_num)
     (by norm_num)).1,
   (grid_length_nx (fun _ => 0) 0 1 3 1 (-2) (by norm_num) (by norm_num)
     (by norm_num)).2.1,
   (grid_length_nx (fun _ => 0) 0 1 3 1 (-2) (by norm_num) (by norm_num)
     (by norm_num)).2.2.1,
   (grid_length_nx (fun _ => 0) 0 1 3 1 (-2) (by norm_num) (by norm_num)
     (by norm_num)).2.2.2.1⟩

-- Claim C5 -----------------------------------------------------------------

/-- C5: for x0, sigma > 0, nx >= 1, dx > 0 and any scheme, the get_delta array
d satisfies d[0] = 0 and d[k] = (s[k] - s[k-1]) / dx for 1 <= k < nx, where s
is the get_step array; hence sum(d) * dx = s[-1] - s[0] by telescoping (exact
real arithmetic). -/
theorem delta_first_difference (erf : ℝ → ℝ) (x0 sigma : ℝ) (nx : ℤ) (dx : ℝ)
    (ismear : ℤ) (hsig : 0 < sigma) (hnx : 1 ≤ nx) (hdx : 0 < dx) :
    okB (get_step erf x0 sigma nx dx ismear) = true ∧
    okB (get_delta erf x0 sigma nx dx ismear) = true ∧
    (okValR (get_delta erf x0 sigma nx dx ismear)).getD 0 0 = 0 ∧
    (∀ k, 1 ≤ k → k < nx.toNat →
      (okValR (get_delta erf x0 sigma nx dx ismear)).getD k 0 =
        ((okValR (get_step erf x0 sigma nx dx ismear)).getD k 0 -
          (okValR (get_step erf x0 sigma nx dx ismear)).getD (k - 1) 0) / dx) ∧
    (okValR (get_delta erf x0 sigma nx dx ismear)).sum * dx =
      (okValR (get_step erf x0 sigma nx dx ismear)).getLastD 0 -
        (okValR (get_step erf x0 sigma nx dx ismear)).headI := by
  have hdx0 : dx ≠ 0 := ne_of_gt hdx
  rw [get_step_eq erf x0 sigma nx dx ismear hdx0,
    get_delta_eq erf x0 sigma nx dx ismear hdx0]
  set s : List ℝ := ((((List.range (arangeLen 0 (nx * dx) dx)).map fun (i : ℕ) =>
    (0 : ℝ) + (i : ℝ) * dx).map fun t => t - x0).map fun t =>
      (t + dx / 2) / sigma).map fun t => step_func erf t ismear with hs
  have hslen : s.length = nx.toNat := by
    rw [hs]
    simp only [List.length_map, List.length_range, arangeLen_int nx dx hdx0]
  have hpos : 0 < s.length := by rw [hslen]; omega
  obtain ⟨a, rest, hrest⟩ : ∃ a rest, s = a :: rest := by
    cases hsn : s with
    | nil => rw [hsn] at hpos; simp at hpos
    | cons a rest => exact ⟨a, rest, rfl⟩
  refine ⟨rfl, rfl, ?_, ?_, ?_⟩
  · show (okValR (.ok (deltaFromStep s dx))).getD 0 0 = 0
    rw [okValR, hrest, deltaFromStep]
    rfl
  · intro k hk1 hk2
    show (okValR (.ok (deltaFromStep s dx))).getD k 0 = _
    rw [okValR, okValR]
    exact deltaFromStep_getD s dx k hk1 (by omega)
  · show (okValR (.ok (deltaFromStep s dx))).sum * dx = _
    rw [okValR, okValR, hrest]
    have := deltaFromStep_sum_cons dx hdx0 rest a
    rw [this]
    rfl

/-- C5 witness: instantiated at x0 = 0, sigma = 1, nx = 2, dx = 1, Gaussian
smearing, with the pointwise identity taken at k = 1. -/
theorem delta_first_difference_witness :
    ((0 : ℝ) < 1 ∧ (1 : ℤ) ≤ 2 ∧ (1 : ℕ) < (2 : ℤ).toNat) ∧
    (okValR (get_delta (fun _ => 0) 0 1 2 1 (-2))).getD 1 0 =
      ((okValR (get_step (fun _ => 0) 0 1 2 1 (-2))).getD 1 0 -
        (okValR (get_step (fun _ => 0) 0 1 2 1 (-2))).getD 0 0) / 1 ∧
    (okValR (get_delta (fun _ => 0) 0 1 2 1 (-2))).sum * 1 =
      (okValR (get_step (fun _ => 0) 0 1 2 1 (-2))).getLastD 0 -
        (okValR (get_step (fun _ => 0) 0 1 2 1 (-2))).headI :=
  ⟨⟨by norm_num, by norm_num, by norm_num⟩,
   (delta_first_difference (fun _ => 0) 0 1 2 1 (-2) (by norm_num) (by norm_num)
     (by norm_num)).2.2.2.1 1 (by norm_num) (by norm_num),
   (delta_first_difference (fun _ => 0) 0 1 2 1 (-2) (by norm_num) (by norm_num)
     (by norm_num)).2.2.2.2⟩

theorem get_delta_vec_singleton (erf : ℝ → ℝ) (x0 sigma : ℝ) (nx : ℤ)
    (dx : ℝ) (ismear : ℤ) :
    get_delta_vec erf [x0] sigma nx dx ismear =
      get_delta erf x0 sigma nx dx ismear := by
  rw [get_delta_vec, get_delta]
  cases h : arange 0 (nx * dx) dx with
  | error e => rw [bindErr, bindErr]
  | ok g =>
    rw [bindOk, bindOk]
    simp [inPlaceSub, bindOk]
    rfl

theorem broadcastMul_singleton (xs : List ℝ) (w : ℝ) :
    broadcastMul xs [w] = .ok (xs.map fun a => a * w) := by
  rw [broadcastMul]
  by_cases h : xs.length = 1
  · obtain ⟨a, rfl⟩ := List.length_eq_one.mp h
    simp
  · simp [h]

theorem get_delta_vec_err (erf : ℝ → ℝ) (x0 : List ℝ) (sigma : ℝ) (nx : ℤ)
    (dx : ℝ) (ismear : ℤ) (hd : dx ≠ 0) (h1 : x0.length ≠ 1)
    (h2 : x0.length ≠ arangeLen 0 (nx * dx) dx) :
    get_delta_vec erf x0 sigma nx dx ismear =
      .error "operands could not be broadcast together (inplace sub)" := by
  rw [get_delta_vec, arange_ok 0 (nx * dx) dx hd, bindOk, inPlaceSub]
  have hlen : ((List.range (arangeLen 0 (nx * dx) dx)).map fun (i : ℕ) =>
      (0 : ℝ) + (i : ℝ) * dx).length = arangeLen 0 (nx * dx) dx := by
    simp
  rw [if_neg h1, if_neg (by rw [hlen]; exact h2), bindErr]

theorem epsddStep_err (erf : ℝ → ℝ) (nspin : ℕ)
    (cder : ℕ → ℕ → ℕ → ℕ → ℕ → ℂ) (eigs : ℕ → ℕ → ℕ → ℝ) (nkw : List ℝ)
    (efermi : ℝ) (nedos : ℤ) (deltae : ℝ) (ismear : ℤ) (sigma : ℝ)
    (idir jdir : ℕ) (epsdd : List ℂ) (q : ℕ × ℕ × ℕ × ℕ) (hde : deltae ≠ 0)
    (h1 : nspin ≠ 1) (h2 : nspin ≠ arangeLen 0 (nedos * deltae) deltae) :
    epsddStep erf nspin cder eigs nkw efermi nedos deltae ismear sigma idir
      jdir epsdd q =
      .error "operands could not be broadcast together (inplace sub)" := by
  obtain ⟨ib, jb, ik, ispin⟩ := q
  show (get_delta_vec erf ((List.range nspin).map fun s =>
      eigs jb ik s - eigs ib ik s) sigma nedos deltae ismear >>= fun _ => _) = _
  rw [get_delta_vec_err erf _ sigma nedos deltae ismear hde
    (by simpa using h1) (by simpa using h2), bindErr]

theorem accumLoop_err_head {α : Type} (f : List ℂ → α → Except String (List ℂ))
    (x : α) (rest : List α) (eps : List ℂ) (e : String)
    (h : f eps x = .error e) : accumLoop f eps (x :: rest) = .error e := by
  simp only [accumLoop, h]

theorem pairLoop_err_head (egrid : List ℝ) (f : ℕ → ℕ → Except String (List ℂ))
    (p : ℕ × ℕ) (ps : List (ℕ × ℕ)) (e : String) (h : f p.1 p.2 = .error e) :
    pairLoop egrid f (p :: ps) = .error e := by
  simp only [pairLoop, h]

theorem ndindex4_cons (a b c d : ℕ) (ha : 1 ≤ a) (hb : 1 ≤ b) (hc : 1 ≤ c)
    (hd : 1 ≤ d) : ∃ rest, ndindex4 a b c d = (0, 0, 0, 0) :: rest := by
  obtain ⟨a1, rfl⟩ : ∃ a1, a = a1 + 1 := ⟨a - 1, by omega⟩
  obtain ⟨b1, rfl⟩ : ∃ b1, b = b1 + 1 := ⟨b - 1, by omega⟩
  obtain ⟨c1, rfl⟩ : ∃ c1, c = c1 + 1 := ⟨c - 1, by omega⟩
  obtain ⟨d1, rfl⟩ : ∃ d1, d = d1 + 1 := ⟨d - 1, by omega⟩
  simp only [ndindex4, List.range_succ_eq_map, List.flatMap_cons, List.map_cons,
    List.cons_append]
  exact ⟨_, rfl⟩

theorem dirPairs_eq :
    dirPairs = [(0, 0), (0, 1), (0, 2), (1, 0), (1, 1), (1, 2), (2, 0),
      (2, 1), (2, 2)] := by
  rfl

-- The broadcasting failure of epsilon_imag: with 2 or more spin channels
-- (and nspin different from the grid length) the in-place subtraction inside
-- get_delta raises on the very first inner iteration, so no element is ever
-- yielded.  Shared by several claims below.
theorem epsilon_imag_broadcast_err (erf : ℝ → ℝ) (nbands nk nspin : ℕ)
    (cder : ℕ → ℕ → ℕ → ℕ → ℕ → ℂ) (eigs : ℕ → ℕ → ℕ → ℝ)
    (kweights : List ℝ) (efermi : ℝ) (nedos : ℤ) (deltae : ℝ) (ismear : ℤ)
    (sigma : ℝ) (h2 : 2 ≤ nspin) (hne : (nspin : ℤ) ≠ nedos)
    (hb : 1 ≤ nbands) (hk : 1 ≤ nk) (hned : 1 ≤ nedos) (hde : deltae ≠ 0) :
    okB (epsilon_imag erf nbands nk nspin cder eigs kweights efermi nedos
      deltae ismear sigma) = false := by
  have hlen : arangeLen 0 ((nedos : ℝ) * deltae) deltae = nedos.toNat :=
    arangeLen_int nedos deltae hde
  have hsp1 : nspin ≠ 1 := by omega
  have hsp2 : nspin ≠ arangeLen 0 ((nedos : ℝ) * deltae) deltae := by
    rw [hlen]
    intro hcontra
    apply hne
    rw [hcontra]
    omega
  obtain ⟨rest, hrest⟩ :=
    ndindex4_cons nbands nbands nk nspin hb hb hk (by omega)
  rw [epsilon_imag, arange_ok 0 ((nedos : ℝ) * deltae) deltae hde, bindOk]
  rw [dirPairs_eq]
  rw [pairLoop_err_head _ _ _ _
    "operands could not be broadcast together (inplace sub)" ?_]
  · rfl
  · rw [epsddFor, hrest]
    exact accumLoop_err_head _ _ _ _ _
      (epsddStep_err erf nspin cder eigs _ efermi nedos deltae ismear sigma
        _ _ _ _ hde hsp1 hsp2)

theorem accumLoop_congr_mem {α : Type} {f g : List ℂ → α → Except String (List ℂ)} :
    ∀ l : List α, (∀ q ∈ l, ∀ eps, f eps q = g eps q) →
      ∀ eps, accumLoop f eps l = accumLoop g eps l := by
  intro l
  induction l with
  | nil => intro _ _; rfl
  | cons x xs ih =>
    intro h eps
    simp only [accumLoop]
    rw [h x (List.mem_cons_self x xs) eps]
    cases g eps x with
    | ok e2 => exact ih (fun q hq eps2 => h q (List.mem_cons_of_mem x hq) eps2) e2
    | error e => rfl

theorem mem_ndindex4 {a b c d : ℕ} {q : ℕ × ℕ × ℕ × ℕ}
    (h : q ∈ ndindex4 a b c d) :
    q.1 < a ∧ q.2.1 < b ∧ q.2.2.1 < c ∧ q.2.2.2 < d := by
  simp only [ndindex4, List.mem_flatMap, List.mem_map, List.mem_range] at h
  obtain ⟨i1, h1, i2, h2, i3, h3, i4, h4, rfl⟩ := h
  exact ⟨h1, h2, h3, h4⟩

theorem epsddStep_spin1_spec (erf : ℝ → ℝ) (cder : ℕ → ℕ → ℕ → ℕ → ℕ → ℂ)
    (eigs : ℕ → ℕ → ℕ → ℝ) (nkw : List ℝ) (efermi : ℝ) (nedos : ℤ)
    (deltae : ℝ) (ismear : ℤ) (sigma : ℝ) (idir jdir : ℕ) (epsdd : List ℂ)
    (ib jb ik : ℕ) :
    epsddStep erf 1 cder eigs nkw efermi nedos deltae ismear sigma idir jdir
      epsdd (ib, jb, ik, 0) =
    epsddStepSpec erf 1 cder eigs nkw efermi nedos deltae ismear sigma idir
      jdir epsdd (ib, jb, ik, 0) := by
  have hr1 : List.range 1 = [0] := rfl
  simp only [epsddStep, epsddStepSpec, hr1, List.map_cons,
    List.map_nil, List.zipWith_cons_cons, List.zipWith_nil_left]
  rw [get_delta_vec_singleton]
  cases h : get_delta erf (eigs jb ik 0 - eigs ib ik 0) sigma nedos deltae
      ismear with
  | error e => rw [bindErr, bindErr]
  | ok dfun =>
    rw [bindOk, bindOk, broadcastMul_singleton, bindOk]

theorem epsddFor_spin1_spec (erf : ℝ → ℝ) (nbands nk : ℕ)
    (cder : ℕ → ℕ → ℕ → ℕ → ℕ → ℂ) (eigs : ℕ → ℕ → ℕ → ℝ) (nkw : List ℝ)
    (efermi : ℝ) (nedos : ℤ) (deltae : ℝ) (ismear : ℤ) (sigma : ℝ)
    (egridLen idir jdir : ℕ) :
    epsddFor erf nbands nk 1 cder eigs nkw efermi nedos deltae ismear sigma
      egridLen idir jdir =
    epsddForSpec erf nbands nk 1 cder eigs nkw efermi nedos deltae ismear
      sigma egridLen idir jdir := by
  rw [epsddFor, epsddForSpec]
  apply accumLoop_congr_mem
  intro q hq eps
  have h4 := (mem_ndindex4 hq).2.2.2
  obtain ⟨ib, jb, ik, ispin⟩ := q
  have h0 : ispin = 0 := by simpa using h4
  subst h0
  exact epsddStep_spin1_spec erf cder eigs nkw efermi nedos deltae ismear
    sigma idir jdir eps ib jb ik

theorem pairLoop_congr (egrid : List ℝ)
    {f g : ℕ → ℕ → Except String (List ℂ)} (h : ∀ i j, f i j = g i j) :
    ∀ ps, pairLoop egrid f ps = pairLoop egrid g ps := by
  intro ps
  induction ps with
  | nil => rfl
  | cons p ps ih =>
    simp only [pairLoop]
    rw [h p.1 p.2, ih]

theorem inPlaceAddC_ok (xs ys : List ℂ) (h : ys.length = xs.length) :
    ∃ zs, inPlaceAddC xs ys = .ok zs ∧ zs.length = xs.length := by
  rw [inPlaceAddC]
  by_cases h1 : ys.length = 1
  · rw [if_pos h1]
    exact ⟨_, rfl, by simp⟩
  · rw [if_neg h1, if_pos h]
    exact ⟨_, rfl, by simp [h]⟩

theorem get_delta_len (erf : ℝ → ℝ) (x0 sigma : ℝ) (nx : ℤ) (dx : ℝ)
    (ismear : ℤ) (hdx : dx ≠ 0) :
    ∃ d, get_delta erf x0 sigma nx dx ismear = .ok d ∧
      d.length = arangeLen 0 (nx * dx) dx := by
  rw [get_delta_eq erf x0 sigma nx dx ismear hdx]
  exact ⟨_, rfl, by simp [deltaFromStep_length]⟩

theorem epsddStep_spin1_ok (erf : ℝ → ℝ) (cder : ℕ → ℕ → ℕ → ℕ → ℕ → ℂ)
    (eigs : ℕ → ℕ → ℕ → ℝ) (nkw : List ℝ) (efermi : ℝ) (nedos : ℤ)
    (deltae : ℝ) (ismear : ℤ) (sigma : ℝ) (idir jdir : ℕ) (hde : deltae ≠ 0)
    (epsdd : List ℂ) (q : ℕ × ℕ × ℕ × ℕ)
    (hlen : epsdd.length = arangeLen 0 (nedos * deltae) deltae) :
    ∃ e2, epsddStep erf 1 cder eigs nkw efermi nedos deltae ismear sigma idir
      jdir epsdd q = .ok e2 ∧ e2.length = epsdd.length := by
  obtain ⟨ib, jb, ik, ispin⟩ := q
  have hr1 : List.range 1 = [0] := rfl
  simp only [epsddStep, hr1, List.map_cons, List.map_nil,
    List.zipWith_cons_cons, List.zipWith_nil_left]
  rw [get_delta_vec_singleton]
  obtain ⟨d, hd, hdlen⟩ :=
    get_delta_len erf (eigs jb ik 0 - eigs ib ik 0) sigma nedos deltae ismear hde
  rw [hd, bindOk, broadcastMul_singleton, bindOk]
  refine inPlaceAddC_ok epsdd _ ?_
  simp only [List.length_map, hdlen, hlen]

theorem accumLoop_ok {α : Type} {f : List ℂ → α → Except String (List ℂ)}
    (L : ℕ)
    (hf : ∀ eps q, eps.length = L → ∃ e2, f eps q = .ok e2 ∧ e2.length = L) :
    ∀ (l : List α) (eps : List ℂ), eps.length = L →
      ∃ out, accumLoop f eps l = .ok out ∧ out.length = L := by
  intro l
  induction l with
  | nil => intro eps h; exact ⟨eps, rfl, h⟩
  | cons x xs ih =>
    intro eps h
    obtain ⟨e2, he2, hlen⟩ := hf eps x h
    simp only [accumLoop, he2]
    exact ih e2 hlen

theorem epsddFor_spin1_ok (erf : ℝ → ℝ) (nbands nk : ℕ)
    (cder : ℕ → ℕ → ℕ → ℕ → ℕ → ℂ) (eigs : ℕ → ℕ → ℕ → ℝ) (nkw : List ℝ)
    (efermi : ℝ) (nedos : ℤ) (deltae : ℝ) (ismear : ℤ) (sigma : ℝ)
    (idir jdir : ℕ) (hde : deltae ≠ 0) :
    ∃ s, epsddFor erf nbands nk 1 cder eigs nkw efermi nedos deltae ismear
      sigma (arangeLen 0 (nedos * deltae) deltae) idir jdir = .ok s ∧
      s.length = arangeLen 0 (nedos * deltae) deltae := by
  rw [epsddFor]
  have h := accumLoop_ok (f := epsddStep erf 1 cder eigs nkw efermi nedos
      deltae ismear sigma idir jdir) (arangeLen 0 (nedos * deltae) deltae)
    (fun eps q hl => by
      obtain ⟨e2, he2, hlen2⟩ := epsddStep_spin1_ok erf cder eigs nkw efermi
        nedos deltae ismear sigma idir jdir hde eps q hl
      exact ⟨e2, he2, by rw [hlen2, hl]⟩)
    (ndindex4 nbands nbands nk 1)
    (List.replicate (arangeLen 0 (nedos * deltae) deltae) 0) (by simp)
  exact h

theorem pairLoop_ok_map (egrid : List ℝ) (f : ℕ → ℕ → Except String (List ℂ))
    (ps : List (ℕ × ℕ)) (hf : ∀ p ∈ ps, ∃ s, f p.1 p.2 = .ok s) :
    pairLoop egrid f ps = .ok (ps.map fun p => (egrid, okValC (f p.1 p.2))) := by
  induction ps with
  | nil => rfl
  | cons p ps ih =>
    obtain ⟨s, hs⟩ := hf p (List.mem_cons_self p ps)
    simp only [pairLoop, hs,
      ih (fun q hq => hf q (List.mem_cons_of_mem p hq)), List.map_cons, okValC]

-- For nspin = 1 the computation always succeeds (provided deltae is not
-- zero): the broadcasting of the length-1 spin slices is the scalar case.
theorem epsilon_imag_spin1_ok (erf : ℝ → ℝ) (nbands nk : ℕ)
    (cder : ℕ → ℕ → ℕ → ℕ → ℕ → ℂ) (eigs : ℕ → ℕ → ℕ → ℝ)
    (kweights : List ℝ) (efermi : ℝ) (nedos : ℤ) (deltae : ℝ) (ismear : ℤ)
    (sigma : ℝ) (hde : deltae ≠ 0) :
    epsilon_imag erf nbands nk 1 cder eigs kweights efermi nedos deltae
      ismear sigma =
    .ok (dirPairs.map fun p =>
      ((List.range (arangeLen 0 (nedos * deltae) deltae)).map
          fun (i : ℕ) => (0 : ℝ) + (i : ℝ) * deltae,
        okValC (epsddFor erf nbands nk 1 cder eigs
          (kweights.map fun w => w / kweights.sum) efermi nedos deltae ismear
          sigma (arangeLen 0 (nedos * deltae) deltae) p.1 p.2))) := by
  rw [epsilon_imag, arange_ok 0 ((nedos : ℝ) * deltae) deltae hde, bindOk]
  have hlen : ((List.range (arangeLen 0 ((nedos : ℝ) * deltae) deltae)).map
      fun (i : ℕ) => (0 : ℝ) + (i : ℝ) * deltae).length =
      arangeLen 0 ((nedos : ℝ) * deltae) deltae := by simp
  rw [hlen]
  exact pairLoop_ok_map _ _ _ (fun p _ =>
    (epsddFor_spin1_ok erf nbands nk cder eigs _ efermi nedos deltae ismear
      sigma p.1 p.2 hde).imp fun s hs => hs.1)

-- Claim C2 -----------------------------------------------------------------

/-- C2: in the inner loop of epsilon_imag the eigenvalue tensor is indexed
only by band and k-point, never by the spin loop variable, so the transition
energy decel passed as the center x0 to get_delta is a length-nspin array;
for every input with nspin >= 2 and nspin /= nedos it cannot broadcast
against the length-nedos grid and requesting the first element raises an
error instead of yielding a spectrum, while for nspin = 1 the computed step
weights and transition energies coincide with the per-spin formulas of the
specification (epsilon_imag_spec). -/
theorem eigs_spin_indexing (erf : ℝ → ℝ) (nbands nk nspin : ℕ)
    (cder : ℕ → ℕ → ℕ → ℕ → ℕ → ℂ) (eigs : ℕ → ℕ → ℕ → ℝ)
    (kweights : List ℝ) (efermi : ℝ) (nedos : ℤ) (deltae : ℝ) (ismear : ℤ)
    (sigma : ℝ) :
    (2 ≤ nspin → (nspin : ℤ) ≠ nedos → 1 ≤ nbands → 1 ≤ nk → 1 ≤ nedos →
      0 < deltae →
      okB (epsilon_imag erf nbands nk nspin cder eigs kweights efermi nedos
        deltae ismear sigma) = false) ∧
    (nspin = 1 →
      epsilon_imag erf nbands nk nspin cder eigs kweights efermi nedos deltae
        ismear sigma =
      epsilon_imag_spec erf nbands nk nspin cder eigs kweights efermi nedos
        deltae ismear sigma) := by
  constructor
  · intro h2 hne hb hk hned hde
    exact epsilon_imag_broadcast_err erf nbands nk nspin cder eigs kweights
      efermi nedos deltae ismear sigma h2 hne hb hk hned (ne_of_gt hde)
  · intro h1
    subst h1
    rw [epsilon_imag, epsilon_imag_spec]
    cases h : arange 0 ((nedos : ℝ) * deltae) deltae with
    | error e => rw [bindErr, bindErr]
    | ok eg =>
      rw [bindOk, bindOk]
      exact pairLoop_congr eg (fun i j => epsddFor_spin1_spec erf nbands nk
        cder eigs _ efermi nedos deltae ismear sigma eg.length i j) dirPairs

/-- C2 witness: the failing branch at nspin = 2, nedos = 3 and the agreeing
branch at nspin = 1. -/
theorem eigs_spin_indexing_witness :
    okB (epsilon_imag (fun _ => 0) 1 1 2 (fun _ _ _ _ _ => 0)
      (fun _ _ _ => 0) [1] 0 3 1 (-2) 1) = false ∧
    epsilon_imag (fun _ => 0) 1 1 1 (fun _ _ _ _ _ => 0) (fun _ _ _ => 0)
      [1] 0 3 1 (-2) 1 =
    epsilon_imag_spec (fun _ => 0) 1 1 1 (fun _ _ _ _ _ => 0)
      (fun _ _ _ => 0) [1] 0 3 1 (-2) 1 :=
  ⟨(eigs_spin_indexing (fun _ => 0) 1 1 2 (fun _ _ _ _ _ => 0)
      (fun _ _ _ => 0) [1] 0 3 1 (-2) 1).1 (by norm_num) (by norm_num)
      (by norm_num) (by norm_num) (by norm_num) (by norm_num),
   (eigs_spin_indexing (fun _ => 0) 1 1 1 (fun _ _ _ _ _ => 0)
      (fun _ _ _ => 0) [1] 0 3 1 (-2) 1).2 rfl⟩

-- Claim C3 -----------------------------------------------------------------

/-- C3 counterexample: a valid input (nspin = 2 spin channels, nedos = 5,
positive deltae and sigma) on which epsilon_imag raises instead of producing
the 9 (energy_grid, spectrum) pairs, refuting the claim for every valid
input. -/
theorem nine_pairs_cex :
    okB (epsilon_imag (fun _ => 0) 1 1 2 (fun _ _ _ _ _ => 0)
      (fun _ _ _ => 0) [1] 0 5 1 (-2) 1) = false :=
  epsilon_imag_broadcast_err (fun _ => 0) 1 1 2 (fun _ _ _ _ _ => 0)
    (fun _ _ _ => 0) [1] 0 5 1 (-2) 1 (by norm_num) (by norm_num)
    (by norm_num) (by norm_num) (by norm_num) (by norm_num)

/-- C3 (amended): for every valid input with a single spin channel
(nspin = 1), epsilon_imag yields exactly 9 (energy_grid, spectrum) pairs,
one per ordered Cartesian direction pair in row-major order
(0,0),(0,1),...,(2,2), with the same energy grid [i * deltae for i < nedos]
in every pair. -/
theorem nine_direction_pairs (erf : ℝ → ℝ) (nbands nk nspin : ℕ)
    (cder : ℕ → ℕ → ℕ → ℕ → ℕ → ℂ) (eigs : ℕ → ℕ → ℕ → ℝ)
    (kweights : List ℝ) (efermi : ℝ) (nedos : ℤ) (deltae : ℝ) (ismear : ℤ)
    (sigma : ℝ) (hspin : nspin = 1) (hned : 1 ≤ nedos) (hde : 0 < deltae) :
    okB (epsilon_imag erf nbands nk nspin cder eigs kweights efermi nedos
      deltae ismear sigma) = true ∧
    yieldCount (epsilon_imag erf nbands nk nspin cder eigs kweights efermi
      nedos deltae ismear sigma) = 9 ∧
    gridsOf (epsilon_imag erf nbands nk nspin cder eigs kweights efermi nedos
      deltae ismear sigma) =
      List.replicate 9 ((List.range nedos.toNat).map
        fun (i : ℕ) => (i : ℝ) * deltae) ∧
    specsOf (epsilon_imag erf nbands nk nspin cder eigs kweights efermi nedos
      deltae ismear sigma) =
      dirPairs.map (fun p => okValC (epsddFor erf nbands nk nspin cder eigs
        (kweights.map fun w => w / kweights.sum) efermi nedos deltae ismear
        sigma nedos.toNat p.1 p.2)) ∧
    dirPairs = [(0, 0), (0, 1), (0, 2), (1, 0), (1, 1), (1, 2), (2, 0),
      (2, 1), (2, 2)] := by
  subst hspin
  have hde0 : deltae ≠ 0 := ne_of_gt hde
  have hlen := arangeLen_int nedos deltae hde0
  rw [epsilon_imag_spin1_ok erf nbands nk cder eigs kweights efermi nedos
    deltae ismear sigma hde0, hlen]
  refine ⟨rfl, ?_, ?_, ?_, dirPairs_eq⟩
  · rw [yieldCount, List.length_map, dirPairs_eq]
    rfl
  · rw [gridsOf, List.map_map]
    show dirPairs.map (fun _ => (List.range nedos.toNat).map
      fun (i : ℕ) => (0 : ℝ) + (i : ℝ) * deltae) = _
    simp only [zero_add]
    rw [List.map_const', dirPairs_eq]
    rfl
  · rw [specsOf, List.map_map]
    rfl

/-- C3 witness: the amended theorem instantiated at a concrete single-spin
input (nbands = 1, nk = 1, nedos = 2, deltae = 1). -/
theorem nine_direction_pairs_witness :
    ((2 : ℤ) ≥ 1 ∧ (0 : ℝ) < 1) ∧
    okB (epsilon_imag (fun _ => 0) 1 1 1 (fun _ _ _ _ _ => 0)
      (fun _ _ _ => 0) [1] 0 2 1 (-2) 1) = true ∧
    yieldCount (epsilon_imag (fun _ => 0) 1 1 1 (fun _ _ _ _ _ => 0)
      (fun _ _ _ => 0) [1] 0 2 1 (-2) 1) = 9 ∧
    gridsOf (epsilon_imag (fun _ => 0) 1 1 1 (fun _ _ _ _ _ => 0)
      (fun _ _ _ => 0) [1] 0 2 1 (-2) 1) =
      List.replicate 9 ((List.range (2 : ℤ).toNat).map
        fun (i : ℕ) => (i : ℝ) * 1) :=
  ⟨⟨by norm_num, by norm_num⟩,
   (nine_direction_pairs (fun _ => 0) 1 1 1 (fun _ _ _ _ _ => 0)
     (fun _ _ _ => 0) [1] 0 2 1 (-2) 1 rfl (by norm_num) (by norm_num)).1,
   (nine_direction_pairs (fun _ => 0) 1 1 1 (fun _ _ _ _ _ => 0)
     (fun _ _ _ => 0) [1] 0 2 1 (-2) 1 rfl (by norm_num) (by norm_num)).2.1,
   (nine_direction_pairs (fun _ => 0) 1 1 1 (fun _ _ _ _ _ => 0)
     (fun _ _ _ => 0) [1] 0 2 1 (-2) 1 rfl (by norm_num)
     (by norm_num)).2.2.1⟩

theorem zipWith_add_zero_right : ∀ (xs ys : List ℂ), ys.length = xs.length →
    (∀ y ∈ ys, y = 0) → List.zipWith (fun a b => a + b) xs ys = xs := by
  intro xs
  induction xs with
  | nil => intro ys _ _; simp
  | cons x xs ih =>
    intro ys h hz
    cases ys with
    | nil => simp at h
    | cons y ys2 =>
      have hy : y = 0 := hz y (List.mem_cons_self y ys2)
      simp only [List.zipWith_cons_cons, hy, add_zero]
      rw [ih ys2 (by simpa using h)
        (fun z hzz => hz z (List.mem_cons_of_mem y hzz))]

theorem inPlaceAddC_zero (xs ys : List ℂ) (h : ys.length = xs.length)
    (hz : ∀ y ∈ ys, y = 0) : inPlaceAddC xs ys = .ok xs := by
  rw [inPlaceAddC]
  by_cases h1 : ys.length = 1
  · rw [if_pos h1]
    obtain ⟨y, rfl⟩ := List.length_eq_one.mp h1
    have hy : y = 0 := hz y (by simp)
    simp [hy]
  · rw [if_neg h1, if_pos h, zipWith_add_zero_right xs ys h hz]

theorem epsddStep_spin1_zero (erf : ℝ → ℝ) (cder : ℕ → ℕ → ℕ → ℕ → ℕ → ℂ)
    (eigs : ℕ → ℕ → ℕ → ℝ) (nkw : List ℝ) (efermi : ℝ) (nedos : ℤ)
    (deltae : ℝ) (ismear : ℤ) (sigma : ℝ) (idir jdir : ℕ) (hde : deltae ≠ 0)
    (hz : ∀ i j k s d2, cder i j k s d2 = 0) (epsdd : List ℂ)
    (q : ℕ × ℕ × ℕ × ℕ)
    (hlen : epsdd.length = arangeLen 0 (nedos * deltae) deltae) :
    epsddStep erf 1 cder eigs nkw efermi nedos deltae ismear sigma idir jdir
      epsdd q = .ok epsdd := by
  obtain ⟨ib, jb, ik, ispin⟩ := q
  have hr1 : List.range 1 = [0] := rfl
  simp only [epsddStep, hr1, List.map_cons, List.map_nil,
    List.zipWith_cons_cons, List.zipWith_nil_left]
  rw [get_delta_vec_singleton]
  obtain ⟨d, hd, hdlen⟩ :=
    get_delta_len erf (eigs jb ik 0 - eigs ib ik 0) sigma nedos deltae ismear hde
  rw [hd, bindOk, broadcastMul_singleton, bindOk]
  apply inPlaceAddC_zero
  · simp only [List.length_map, hdlen, hlen]
  · intro y hy
    simp only [List.mem_map] at hy
    obtain ⟨r, _, rfl⟩ := hy
    rw [hz, hz]
    simp

theorem accumLoop_fix {α : Type} {f : List ℂ → α → Except String (List ℂ)}
    (eps : List ℂ) (l : List α) (hf : ∀ q ∈ l, f eps q = .ok eps) :
    accumLoop f eps l = .ok eps := by
  induction l with
  | nil => rfl
  | cons x xs ih =>
    simp only [accumLoop, hf x (List.mem_cons_self x xs)]
    exact ih (fun q hq => hf q (List.mem_cons_of_mem x hq))

theorem epsddFor_spin1_zero (erf : ℝ → ℝ) (nbands nk : ℕ)
    (cder : ℕ → ℕ → ℕ → ℕ → ℕ → ℂ) (eigs : ℕ → ℕ → ℕ → ℝ) (nkw : List ℝ)
    (efermi : ℝ) (nedos : ℤ) (deltae : ℝ) (ismear : ℤ) (sigma : ℝ)
    (idir jdir : ℕ) (hde : deltae ≠ 0)
    (hz : ∀ i j k s d2, cder i j k s d2 = 0) :
    epsddFor erf nbands nk 1 cder eigs nkw efermi nedos deltae ismear sigma
      (arangeLen 0 (nedos * deltae) deltae) idir jdir =
    .ok (List.replicate (arangeLen 0 (nedos * deltae) deltae) 0) := by
  rw [epsddFor]
  exact accumLoop_fix _ _ (fun q _ => epsddStep_spin1_zero erf cder eigs nkw
    efermi nedos deltae ismear sigma idir jdir hde hz _ q (by simp))

-- Claim C7 -----------------------------------------------------------------

/-- C7 counterexample: a valid input whose cder tensor is exactly zero
everywhere, but with nspin = 2 spin channels (nedos = 4): epsilon_imag raises
a broadcasting error instead of yielding 9 all-zero spectra, refuting the
claim for every valid input. -/
theorem zero_cder_cex :
    okB (epsilon_imag (fun _ => 0) 1 1 2 (fun _ _ _ _ _ => 0)
      (fun _ _ _ => 0) [1] 0 4 1 (-2) 1) = false :=
  epsilon_imag_broadcast_err (fun _ => 0) 1 1 2 (fun _ _ _ _ _ => 0)
    (fun _ _ _ => 0) [1] 0 4 1 (-2) 1 (by norm_num) (by norm_num)
    (by norm_num) (by norm_num) (by norm_num) (by norm_num)

/-- C7 (amended): for every valid input with a single spin channel
(nspin = 1) whose cder tensor is exactly zero everywhere, epsilon_imag
yields 9 all-zero complex spectra, each of length nedos. -/
theorem zero_cder_zero_spectra (erf : ℝ → ℝ) (nbands nk nspin : ℕ)
    (cder : ℕ → ℕ → ℕ → ℕ → ℕ → ℂ) (eigs : ℕ → ℕ → ℕ → ℝ)
    (kweights : List ℝ) (efermi : ℝ) (nedos : ℤ) (deltae : ℝ) (ismear : ℤ)
    (sigma : ℝ) (hspin : nspin = 1) (hned : 1 ≤ nedos) (hde : 0 < deltae)
    (hz : ∀ i j k s d2, cder i j k s d2 = 0) :
    okB (epsilon_imag erf nbands nk nspin cder eigs kweights efermi nedos
      deltae ismear sigma) = true ∧
    yieldCount (epsilon_imag erf nbands nk nspin cder eigs kweights efermi
      nedos deltae ismear sigma) = 9 ∧
    specsOf (epsilon_imag erf nbands nk nspin cder eigs kweights efermi nedos
      deltae ismear sigma) =
      List.replicate 9 (List.replicate nedos.toNat 0) := by
  subst hspin
  have hde0 : deltae ≠ 0 := ne_of_gt hde
  have hlen := arangeLen_int nedos deltae hde0
  rw [epsilon_imag_spin1_ok erf nbands nk cder eigs kweights efermi nedos
    deltae ismear sigma hde0]
  refine ⟨rfl, ?_, ?_⟩
  · rw [yieldCount, List.length_map, dirPairs_eq]
    rfl
  · rw [specsOf, List.map_map]
    have hfix : ∀ p : ℕ × ℕ,
        okValC (epsddFor erf nbands nk 1 cder eigs
          (kweights.map fun w => w / kweights.sum) efermi nedos deltae ismear
          sigma (arangeLen 0 (nedos * deltae) deltae) p.1 p.2) =
        List.replicate nedos.toNat 0 := by
      intro p
      rw [epsddFor_spin1_zero erf nbands nk cder eigs _ efermi nedos deltae
        ismear sigma p.1 p.2 hde0 hz, okValC, hlen]
    calc dirPairs.map (Prod.snd ∘ fun p =>
          ((List.range (arangeLen 0 (nedos * deltae) deltae)).map
            fun (i : ℕ) => (0 : ℝ) + (i : ℝ) * deltae,
          okValC (epsddFor erf nbands nk 1 cder eigs
            (kweights.map fun w => w / kweights.sum) efermi nedos deltae
            ismear sigma (arangeLen 0 (nedos * deltae) deltae) p.1 p.2)))
        = dirPairs.map (fun _ => List.replicate nedos.toNat 0) := by
          apply List.map_congr_left
          intro p _
          exact hfix p
      _ = List.replicate 9 (List.replicate nedos.toNat 0) := by
          rw [List.map_const', dirPairs_eq]
          rfl

/-- C7 witness: the amended theorem instantiated at a concrete zero tensor
with nbands = 1, nk = 1, nspin = 1, nedos = 3. -/
theorem zero_cder_zero_spectra_witness :
    ((3 : ℤ) ≥ 1 ∧ (0 : ℝ) < 1) ∧
    okB (epsilon_imag (fun _ => 0) 1 1 1 (fun _ _ _ _ _ => 0)
      (fun _ _ _ => 0) [1] 0 3 1 (-2) 1) = true ∧
    specsOf (epsilon_imag (fun _ => 0) 1 1 1 (fun _ _ _ _ _ => 0)
      (fun _ _ _ => 0) [1] 0 3 1 (-2) 1) =
      List.replicate 9 (List.replicate (3 : ℤ).toNat 0) :=
  ⟨⟨by norm_num, by norm_num⟩,
   (zero_cder_zero_spectra (fun _ => 0) 1 1 1 (fun _ _ _ _ _ => 0)
     (fun _ _ _ => 0) [1] 0 3 1 (-2) 1 rfl (by norm_num) (by norm_num)
     (fun _ _ _ _ _ => rfl)).1,
   (zero_cder_zero_spectra (fun _ => 0) 1 1 1 (fun _ _ _ _ _ => 0)
     (fun _ _ _ => 0) [1] 0 3 1 (-2) 1 rfl (by norm_num) (by norm_num)
     (fun _ _ _ _ _ => rfl)).2.2⟩

-- Claim C1 -----------------------------------------------------------------

/-- C1 counterexample: get_step and get_delta called with nedos = 0 (an
invalid grid size, nedos <= 0) raise no validation error: they return an
empty array normally, refuting the claim that every such call fails eagerly
at entry. -/
theorem validation_cex :
    get_step (fun _ => 0) 0 1 0 1 (-2) = .ok [] ∧
    get_delta (fun _ => 0) 0 1 0 1 (-2) = .ok [] := by
  have h0 : arangeLen 0 ((0 : ℤ) * (1 : ℝ)) 1 = (0 : ℤ).toNat :=
    arangeLen_int 0 1 (by norm_num)
  constructor
  · rw [get_step_eq (fun _ => 0) 0 1 0 1 (-2) (by norm_num), h0]
    rfl
  · rw [get_delta_eq (fun _ => 0) 0 1 0 1 (-2) (by norm_num), h0]
    rfl

/-- C1 (amended): no eager validation takes place.  For every deltae /= 0
(including every deltae < 0, every nedos <= 0, and every sigma <= 0),
get_step and get_delta return an array without raising, and epsilon_imag with
a single spin channel yields its sequence without raising; the only raised
error in the grid functions comes from np.arange when deltae = 0, not from a
validation check. -/
theorem no_eager_validation (erf : ℝ → ℝ) (x0 sigma : ℝ) (nx : ℤ) (dx : ℝ)
    (ismear : ℤ) (nbands nk : ℕ) (cder : ℕ → ℕ → ℕ → ℕ → ℕ → ℂ)
    (eigs : ℕ → ℕ → ℕ → ℝ) (kweights : List ℝ) (efermi : ℝ) :
    (dx ≠ 0 → okB (get_step erf x0 sigma nx dx ismear) = true ∧
      okB (get_delta erf x0 sigma nx dx ismear) = true ∧
      okB (epsilon_imag erf nbands nk 1 cder eigs kweights efermi nx dx
        ismear sigma) = true) ∧
    (dx = 0 → okB (get_step erf x0 sigma nx dx ismear) = false ∧
      okB (get_delta erf x0 sigma nx dx ismear) = false) := by
  constructor
  · intro h
    refine ⟨?_, ?_, ?_⟩
    · rw [get_step_eq erf x0 sigma nx dx ismear h]; rfl
    · rw [get_delta_eq erf x0 sigma nx dx ismear h]; rfl
    · rw [epsilon_imag_spin1_ok erf nbands nk cder eigs kweights efermi nx dx
        ismear sigma h]
      rfl
  · intro h
    subst h
    rw [get_step, get_delta, arange, if_pos rfl, bindErr, bindErr]
    exact ⟨rfl, rfl⟩

/-- C1 witness: the amended theorem instantiated at nedos = -1, deltae = 2,
sigma = -3 (invalid grid parameters and invalid smearing width, yet both grid
functions return normally), and at deltae = 0 (the one failing case, raised
by np.arange rather than by validation). -/
theorem no_eager_validation_witness :
    ((2 : ℝ) ≠ 0 ∧
      okB (get_step (fun _ => 0) 0 (-3) (-1) 2 (-2)) = true ∧
      okB (get_delta (fun _ => 0) 0 (-3) (-1) 2 (-2)) = true) ∧
    ((0 : ℝ) = 0 ∧
      okB (get_step (fun _ => 0) 0 1 3 0 (-2)) = false) :=
  ⟨⟨by norm_num,
    ((no_eager_validation (fun _ => 0) 0 (-3) (-1) 2 (-2) 1 1
      (fun _ _ _ _ _ => 0) (fun _ _ _ => 0) [1] 0).1 (by norm_num)).1,
    ((no_eager_validation (fun _ => 0) 0 (-3) (-1) 2 (-2) 1 1
      (fun _ _ _ _ _ => 0) (fun _ _ _ => 0) [1] 0).1 (by norm_num)).2.1⟩,
   ⟨rfl,
    ((no_eager_validation (fun _ => 0) 0 1 3 0 (-2) 1 1
      (fun _ _ _ _ _ => 0) (fun _ _ _ => 0) [1] 0).2 rfl).1⟩⟩

theorem exceptMap_ok {α β : Type} (f : α → β) (a : α) :
    Except.map (ε := String) f (.ok a) = .ok (f a) := rfl

theorem exceptMap_err {α β : Type} (f : α → β) (e : String) :
    Except.map (ε := String) f (.error (α := α) e) = .error e := rfl

theorem headI_map_conj (l : List ℂ) :
    (l.map (starRingEnd ℂ)).headI = (starRingEnd ℂ) l.headI := by
  cases l with
  | nil => exact (map_zero (starRingEnd ℂ)).symm
  | cons a t => simp

theorem zipWith_add_conj : ∀ xs ys : List ℂ,
    List.zipWith (fun a b => a + b) (xs.map (starRingEnd ℂ))
      (ys.map (starRingEnd ℂ)) =
    (List.zipWith (fun a b => a + b) xs ys).map (starRingEnd ℂ) := by
  intro xs
  induction xs with
  | nil => intro ys; simp
  | cons x xs ih =>
    intro ys
    cases ys with
    | nil => simp
    | cons y ys2 =>
      simp only [List.map_cons, List.zipWith_cons_cons, map_add]
      rw [ih ys2]

theorem inPlaceAddC_conj (xs ys : List ℂ) :
    inPlaceAddC (xs.map (starRingEnd ℂ)) (ys.map (starRingEnd ℂ)) =
      Except.map (List.map (starRingEnd ℂ)) (inPlaceAddC xs ys) := by
  rw [inPlaceAddC, inPlaceAddC]
  by_cases h1 : ys.length = 1
  · rw [if_pos (by simpa using h1), if_pos h1, exceptMap_ok]
    simp only [List.map_map]
    congr 1
    apply List.map_congr_left
    intro a _
    simp [headI_map_conj, map_add]
  · by_cases h2 : ys.length = xs.length
    · rw [if_neg (by simpa using h1), if_neg h1,
        if_pos (by simpa using h2), if_pos h2, exceptMap_ok]
      exact congrArg Except.ok (zipWith_add_conj xs ys)
    · rw [if_neg (by simpa using h1), if_neg h1,
        if_neg (by simpa using h2), if_neg h2, exceptMap_err]

theorem epsddStep_conj (erf : ℝ → ℝ) (nspin : ℕ)
    (cder : ℕ → ℕ → ℕ → ℕ → ℕ → ℂ) (eigs : ℕ → ℕ → ℕ → ℝ) (nkw : List ℝ)
    (efermi : ℝ) (nedos : ℤ) (deltae : ℝ) (ismear : ℤ) (sigma : ℝ)
    (idir jdir : ℕ) (epsdd : List ℂ) (q : ℕ × ℕ × ℕ × ℕ) :
    epsddStep erf nspin cder eigs nkw efermi nedos deltae ismear sigma jdir
      idir (epsdd.map (starRingEnd ℂ)) q =
    Except.map (List.map (starRingEnd ℂ))
      (epsddStep erf nspin cder eigs nkw efermi nedos deltae ismear sigma
        idir jdir epsdd q) := by
  obtain ⟨ib, jb, ik, ispin⟩ := q
  simp only [epsddStep]
  cases hgd : get_delta_vec erf ((List.range nspin).map fun s =>
      eigs jb ik s - eigs ib ik s) sigma nedos deltae ismear with
  | error e => rw [bindErr, bindErr, exceptMap_err]
  | ok dfun =>
    rw [bindOk, bindOk]
    cases hbm : broadcastMul dfun (List.zipWith (fun wj wi =>
        (wj - wi) * (3 - (nspin : ℝ)) * nkw.getD ik 0)
        ((List.range nspin).map fun s =>
          step_func erf ((eigs jb ik s - efermi) / sigma) ismear)
        ((List.range nspin).map fun s =>
          step_func erf ((eigs ib ik s - efermi) / sigma) ismear)) with
    | error e => rw [bindErr, bindErr, exceptMap_err]
    | ok dw =>
      rw [bindOk, bindOk]
      have hsm : (dw.map fun (r : ℝ) => (r : ℂ) *
          (cder ib jb ik ispin jdir *
            (starRingEnd ℂ) (cder ib jb ik ispin idir))) =
          (dw.map fun (r : ℝ) => (r : ℂ) *
            (cder ib jb ik ispin idir *
              (starRingEnd ℂ) (cder ib jb ik ispin jdir))).map
            (starRingEnd ℂ) := by
        rw [List.map_map]
        apply List.map_congr_left
        intro r _
        simp only [Function.comp_apply, map_mul, Complex.conj_ofReal,
          Complex.conj_conj]
        ring
      rw [hsm]
      exact inPlaceAddC_conj epsdd _

theorem accumLoop_conj (erf : ℝ → ℝ) (nspin : ℕ)
    (cder : ℕ → ℕ → ℕ → ℕ → ℕ → ℂ) (eigs : ℕ → ℕ → ℕ → ℝ) (nkw : List ℝ)
    (efermi : ℝ) (nedos : ℤ) (deltae : ℝ) (ismear : ℤ) (sigma : ℝ)
    (idir jdir : ℕ) :
    ∀ (l : List (ℕ × ℕ × ℕ × ℕ)) (epsdd : List ℂ),
      accumLoop (epsddStep erf nspin cder eigs nkw efermi nedos deltae ismear
          sigma jdir idir) (epsdd.map (starRingEnd ℂ)) l =
      Except.map (List.map (starRingEnd ℂ))
        (accumLoop (epsddStep erf nspin cder eigs nkw efermi nedos deltae
          ismear sigma idir jdir) epsdd l) := by
  intro l
  induction l with
  | nil => intro epsdd; rfl
  | cons x xs ih =>
    intro epsdd
    simp only [accumLoop]
    rw [epsddStep_conj]
    cases epsddStep erf nspin cder eigs nkw efermi nedos deltae ismear sigma
        idir jdir epsdd x with
    | error e => rfl
    | ok e2 => exact ih e2

-- Claim C6 -----------------------------------------------------------------

/-- C6: swapping the direction indices idir and jdir in the accumulation of
epsilon_imag yields the element-wise complex conjugate spectrum, because the
coupling satisfies A(i,j) = conj(A(j,i)) while the weight and the discretized
delta kernel are real; a raised broadcasting error is likewise mirrored. -/
theorem swap_directions_conjugate (erf : ℝ → ℝ) (nbands nk nspin : ℕ)
    (cder : ℕ → ℕ → ℕ → ℕ → ℕ → ℂ) (eigs : ℕ → ℕ → ℕ → ℝ) (nkw : List ℝ)
    (efermi : ℝ) (nedos : ℤ) (deltae : ℝ) (ismear : ℤ) (sigma : ℝ)
    (egridLen idir jdir : ℕ) :
    epsddFor erf nbands nk nspin cder eigs nkw efermi nedos deltae ismear
      sigma egridLen jdir idir =
    Except.map (List.map (starRingEnd ℂ))
      (epsddFor erf nbands nk nspin cder eigs nkw efermi nedos deltae ismear
        sigma egridLen idir jdir) := by
  rw [epsddFor, epsddFor]
  have h0 : (List.replicate egridLen (0 : ℂ)).map (starRingEnd ℂ) =
      List.replicate egridLen 0 := by simp
  conv_lhs => rw [← h0]
  exact accumLoop_conj erf nspin cder eigs nkw efermi nedos deltae ismear
    sigma idir jdir (ndindex4 nbands nbands nk nspin) (List.replicate egridLen 0)

-- Heap basics for the mutation model ---------------------------------------

theorem readA_append_lt (h : Heap) (as : List NpArr) (i : ℕ)
    (hi : i < List.length h) : readA (List.append h as) i = readA h i := by
  unfold readA
  exact List.getD_append h as _ i hi

theorem readA_append_self (h : Heap) (a : NpArr) :
    readA (List.append h [a]) (List.length h) = a := by
  unfold readA
  rw [List.getD_eq_getElem _ _ (by simp)]
  simp

theorem readA_set_ne (h : Heap) (i j : ℕ) (a : NpArr) (hne : i ≠ j) :
    readA (writeA h i a) j = readA h j := by
  unfold readA writeA
  simp [List.getD_eq_getElem?_getD, List.getElem?_set_ne hne]

theorem readA_set_eq (h : Heap) (i : ℕ) (a : NpArr) (hi : i < List.length h) :
    readA (writeA h i a) i = a := by
  unfold readA writeA
  simp [List.getD_eq_getElem?_getD, List.getElem?_set_self, hi]

theorem writeA_length (h : Heap) (i : ℕ) (a : NpArr) :
    List.length (writeA h i a) = List.length h := by
  unfold writeA
  exact List.length_set h i a

theorem presBelow_refl (n : ℕ) (h : Heap) : presBelow n h h :=
  ⟨le_refl _, fun _ _ => rfl⟩

theorem presBelow_trans {n : ℕ} {h h2 h3 : Heap} (a : presBelow n h h2)
    (b : presBelow n h2 h3) : presBelow n h h3 :=
  ⟨le_trans a.1 b.1, fun i hi => (b.2 i hi).trans (a.2 i hi)⟩

theorem presBelow_alloc (n : ℕ) (h : Heap) (a : NpArr)
    (hn : n ≤ List.length h) : presBelow n h (List.append h [a]) :=
  ⟨by simp, fun i hi => readA_append_lt h [a] i (lt_of_lt_of_le hi hn)⟩

theorem presBelow_write (n : ℕ) (h : Heap) (i : ℕ) (a : NpArr) (hi : n ≤ i) :
    presBelow n h (writeA h i a) :=
  ⟨le_of_eq (writeA_length h i a).symm,
   fun j hj => readA_set_ne h i j a (by omega)⟩

theorem presExcept_of_presBelow {n j : ℕ} {h h2 : Heap}
    (a : presBelow n h h2) : presExcept n j h h2 :=
  ⟨a.1, fun i hi _ => a.2 i hi⟩

theorem presExcept_trans {n j : ℕ} {h h2 h3 : Heap} (a : presExcept n j h h2)
    (b : presExcept n j h2 h3) : presExcept n j h h3 :=
  ⟨le_trans a.1 b.1, fun i hi hij => (b.2 i hi hij).trans (a.2 i hi hij)⟩

theorem get_delta_heap_spec (erf : ℝ → ℝ) (x0 : List ℝ) (sigma : ℝ) (nx : ℤ)
    (dx : ℝ) (ismear : ℤ) (h : Heap) :
    presBelow (List.length h) h (get_delta_heap erf x0 sigma nx dx ismear h).1 ∧
    (∀ e, (get_delta_heap erf x0 sigma nx dx ismear h).2 = .error e →
      get_delta_vec erf x0 sigma nx dx ismear = .error e) ∧
    (∀ did, (get_delta_heap erf x0 sigma nx dx ismear h).2 = .ok did →
      List.length h ≤ did ∧
      ∃ d, get_delta_vec erf x0 sigma nx dx ismear = .ok d ∧
        readA (get_delta_heap erf x0 sigma nx dx ismear h).1 did = .rA d) := by
  cases ha : arange 0 (nx * dx) dx with
  | error e =>
    simp only [get_delta_heap, get_delta_vec, ha, bindErr]
    refine ⟨presBelow_refl _ _, ?_, ?_⟩
    · intro e2 he
      injection he with hq
      rw [hq]
    · intro did hd
      exact absurd hd (by simp)
  | ok g =>
    cases hs : inPlaceSub g x0 with
    | error e =>
      simp only [get_delta_heap, get_delta_vec, ha, hs, bindOk, bindErr, allocA]
      refine ⟨presBelow_alloc _ h _ (le_refl _), ?_, ?_⟩
      · intro e2 he
        injection he with hq
        rw [hq]
      · intro did hd
        exact absurd hd (by simp)
    | ok xg =>
      simp only [get_delta_heap, get_delta_vec, ha, hs, bindOk, allocA]
      have hlen1 : List.length (List.append h [NpArr.rA g]) =
          List.length h + 1 := by simp
      have hlen2 : List.length (writeA (List.append h [NpArr.rA g])
          (List.length h) (NpArr.rA xg)) = List.length h + 1 := by
        rw [writeA_length, hlen1]
      refine ⟨?_, ?_, ?_⟩
      · refine presBelow_trans (presBelow_alloc _ h _ (le_refl _))
          (presBelow_trans (presBelow_write _ _ _ _ (le_refl _))
            (presBelow_trans (presBelow_alloc _ _ _ ?_)
              (presBelow_write _ _ _ _ ?_)))
        · rw [hlen2]
          omega
        · rw [hlen2]
          omega
      · intro e2 he
        exact absurd he (by simp)
      · intro did hd
        have hdid : List.length (writeA (List.append h [NpArr.rA g])
            (List.length h) (NpArr.rA xg)) = did := (Except.ok.injEq _ _).mp hd
        subst hdid
        refine ⟨?_, _, rfl, ?_⟩
        · rw [hlen2]
          omega
        · apply readA_set_eq
          simp

theorem presExcept_write (n j : ℕ) (h : Heap) (a : NpArr) :
    presExcept n j h (writeA h j a) :=
  ⟨le_of_eq (writeA_length h j a).symm,
   fun i _ hij => readA_set_ne h j i a (fun hc => hij hc.symm)⟩

theorem flatIdx_lt {a c e : ℕ} (ib ik s : ℕ) (h1 : ib < a) (h2 : ik < c)
    (h3 : s < e) : (ib * c + ik) * e + s < a * c * e := by
  have h4 : ib * c + ik + 1 ≤ a * c := by
    have hik : ik + 1 ≤ c := h2
    calc ib * c + ik + 1 ≤ ib * c + c := by omega
      _ = (ib + 1) * c := by ring
      _ ≤ a * c := Nat.mul_le_mul_right c h1
  calc (ib * c + ik) * e + s < (ib * c + ik) * e + e := by omega
    _ = (ib * c + ik + 1) * e := by ring
    _ ≤ a * c * e := Nat.mul_le_mul_right e h4

theorem eigsAt_map_sub (eigsL : List ℝ) (nk nspin b ik s : ℕ) (efermi : ℝ)
    (hb : (b * nk + ik) * nspin + s < eigsL.length) :
    eigsAt (eigsL.map fun t => t - efermi) nk nspin b ik s =
      eigsAt eigsL nk nspin b ik s - efermi := by
  unfold eigsAt
  rw [List.getD_eq_getElem _ _ (by simpa using hb),
    List.getD_eq_getElem _ _ hb, List.getElem_map]

theorem epsddStepHeap_spec (erf : ℝ → ℝ) (nbands nk nspin : ℕ) (efermi : ℝ)
    (nedos : ℤ) (deltae : ℝ) (ismear : ℤ) (sigma : ℝ) (idir jdir : ℕ)
    (eigsShiftId nkwId epsddId : ℕ) (cderL : List ℂ) (eigsL nkwL : List ℝ)
    (eps : List ℂ) (h : Heap) (q : ℕ × ℕ × ℕ × ℕ)
    (hq : q ∈ ndindex4 nbands nbands nk nspin)
    (hlenE : eigsL.length = nbands * nk * nspin)
    (h0 : readA h 0 = .cA cderL) (h1 : readA h 1 = .rA eigsL)
    (hES : readA h eigsShiftId = .rA (eigsL.map fun t => t - efermi))
    (hNK : readA h nkwId = .rA nkwL)
    (hEps : readA h epsddId = .cA eps)
    (hepsLt : epsddId < List.length h) :
    presExcept (List.length h) epsddId h
      (epsddStepHeap erf nbands nk nspin efermi nedos deltae ismear sigma
        idir jdir eigsShiftId nkwId epsddId h q).1 ∧
    (∀ e, (epsddStepHeap erf nbands nk nspin efermi nedos deltae ismear sigma
        idir jdir eigsShiftId nkwId epsddId h q).2 = .error e →
      epsddStep erf nspin (cderAt cderL nbands nk nspin)
        (eigsAt eigsL nk nspin) nkwL efermi nedos deltae ismear sigma idir
        jdir eps q = .error e) ∧
    ((epsddStepHeap erf nbands nk nspin efermi nedos deltae ismear sigma idir
        jdir eigsShiftId nkwId epsddId h q).2 = .ok () →
      ∃ eps2, epsddStep erf nspin (cderAt cderL nbands nk nspin)
        (eigsAt eigsL nk nspin) nkwL efermi nedos deltae ismear sigma idir
        jdir eps q = .ok eps2 ∧
      readA (epsddStepHeap erf nbands nk nspin efermi nedos deltae ismear
        sigma idir jdir eigsShiftId nkwId epsddId h q).1 epsddId =
        .cA eps2) := by
  obtain ⟨ib, jb, ik, ispin⟩ := q
  obtain ⟨hib, hjb, hik, his⟩ := mem_ndindex4 hq
  have hfi : ((List.range nspin).map fun s => step_func erf
      (eigsAt (eigsL.map fun t => t - efermi) nk nspin ib ik s / sigma)
        ismear) =
      (List.range nspin).map fun s => step_func erf
        ((eigsAt eigsL nk nspin ib ik s - efermi) / sigma) ismear := by
    apply List.map_congr_left
    intro s hs
    rw [eigsAt_map_sub eigsL nk nspin ib ik s efermi
      (hlenE ▸ flatIdx_lt ib ik s hib hik (List.mem_range.mp hs))]
  have hfj : ((List.range nspin).map fun s => step_func erf
      (eigsAt (eigsL.map fun t => t - efermi) nk nspin jb ik s / sigma)
        ismear) =
      (List.range nspin).map fun s => step_func erf
        ((eigsAt eigsL nk nspin jb ik s - efermi) / sigma) ismear := by
    apply List.map_congr_left
    intro s hs
    rw [eigsAt_map_sub eigsL nk nspin jb ik s efermi
      (hlenE ▸ flatIdx_lt jb ik s hjb hik (List.mem_range.mp hs))]
  simp only [epsddStepHeap, epsddStep, h0, h1, hES, hNK, asC, asR, hfi, hfj]
  cases hgd : get_delta_heap erf ((List.range nspin).map fun s =>
      eigsAt eigsL nk nspin jb ik s - eigsAt eigsL nk nspin ib ik s) sigma
      nedos deltae ismear h with
  | mk h5 r5 =>
    obtain ⟨pgd, egd, ogd⟩ := get_delta_heap_spec erf ((List.range nspin).map
      fun s => eigsAt eigsL nk nspin jb ik s - eigsAt eigsL nk nspin ib ik s)
      sigma nedos deltae ismear h
    rw [hgd] at pgd egd ogd
    dsimp only at pgd egd ogd
    cases r5 with
    | error e =>
      dsimp only
      rw [egd e rfl, bindErr]
      refine ⟨presExcept_of_presBelow pgd, ?_, ?_⟩
      · intro e2 he
        injection he with hq
        rw [hq]
      · intro hcon
        exact absurd hcon (by simp)
    | ok dfunId =>
      dsimp only
      obtain ⟨hdge, d, hpure, hread⟩ := ogd dfunId rfl
      rw [hpure, bindOk, hread]
      dsimp only
      cases hbm : broadcastMul d (List.zipWith (fun wj wi =>
          (wj - wi) * (3 - (nspin : ℝ)) * nkwL.getD ik 0)
          ((List.range nspin).map fun s => step_func erf
            ((eigsAt eigsL nk nspin jb ik s - efermi) / sigma) ismear)
          ((List.range nspin).map fun s => step_func erf
            ((eigsAt eigsL nk nspin ib ik s - efermi) / sigma) ismear)) with
      | error e =>
        rw [bindErr]
        refine ⟨presExcept_of_presBelow pgd, ?_, ?_⟩
        · intro e2 he
          injection he with hq
          rw [hq]
        · intro hcon
          exact absurd hcon (by simp)
      | ok dw =>
        rw [bindOk]
        have hread5 : readA h5 epsddId = .cA eps := by
          rw [pgd.2 epsddId hepsLt, hEps]
        rw [hread5]
        dsimp only
        cases hadd : inPlaceAddC eps (dw.map fun (r : ℝ) =>
            (r : ℂ) * (cderAt cderL nbands nk nspin ib jb ik ispin idir *
              (starRingEnd ℂ)
                (cderAt cderL nbands nk nspin ib jb ik ispin jdir))) with
        | error e =>
          refine ⟨presExcept_of_presBelow pgd, ?_, ?_⟩
          · intro e2 he
            injection he with hq
            rw [hq]
          · intro hcon
            exact absurd hcon (by simp)
        | ok eps2 =>
          refine ⟨presExcept_trans (presExcept_of_presBelow pgd)
            (presExcept_write _ _ _ _), ?_, ?_⟩
          · intro e2 he
            exact absurd he (by simp)
          · intro _
            refine ⟨eps2, rfl, ?_⟩
            exact readA_set_eq h5 epsddId _ (lt_of_lt_of_le hepsLt pgd.1)

theorem presBelow_mono {n m : ℕ} {h h2 : Heap} (hnm : n ≤ m)
    (a : presBelow m h h2) : presBelow n h h2 :=
  ⟨a.1, fun i hi => a.2 i (lt_of_lt_of_le hi hnm)⟩

theorem presExcept_mono {n m j : ℕ} {h h2 : Heap} (hnm : n ≤ m)
    (a : presExcept m j h h2) : presExcept n j h h2 :=
  ⟨a.1, fun i hi hij => a.2 i (lt_of_lt_of_le hi hnm) hij⟩

theorem presBelow_of_presExcept {n j : ℕ} {h h2 : Heap} (hj : n ≤ j)
    (a : presExcept n j h h2) : presBelow n h h2 :=
  ⟨a.1, fun i hi => a.2 i hi (by omega)⟩

theorem heapLoop_spec (erf : ℝ → ℝ) (nbands nk nspin : ℕ) (efermi : ℝ)
    (nedos : ℤ) (deltae : ℝ) (ismear : ℤ) (sigma : ℝ) (idir jdir : ℕ)
    (eigsShiftId nkwId epsddId : ℕ) (cderL : List ℂ) (eigsL nkwL : List ℝ)
    (hlenE : eigsL.length = nbands * nk * nspin) :
    ∀ l : List (ℕ × ℕ × ℕ × ℕ),
      (∀ q ∈ l, q ∈ ndindex4 nbands nbands nk nspin) →
    ∀ (h : Heap) (eps : List ℂ),
      readA h 0 = .cA cderL → readA h 1 = .rA eigsL →
      readA h eigsShiftId = .rA (eigsL.map fun t => t - efermi) →
      readA h nkwId = .rA nkwL → readA h epsddId = .cA eps →
      epsddId < List.length h → 1 < List.length h →
      eigsShiftId < List.length h → nkwId < List.length h →
      0 ≠ epsddId → 1 ≠ epsddId → eigsShiftId ≠ epsddId → nkwId ≠ epsddId →
      presExcept (List.length h) epsddId h
        (heapLoop (epsddStepHeap erf nbands nk nspin efermi nedos deltae
          ismear sigma idir jdir eigsShiftId nkwId epsddId) h l).1 ∧
      (∀ e, (heapLoop (epsddStepHeap erf nbands nk nspin efermi nedos deltae
          ismear sigma idir jdir eigsShiftId nkwId epsddId) h l).2 =
          .error e →
        accumLoop (epsddStep erf nspin (cderAt cderL nbands nk nspin)
          (eigsAt eigsL nk nspin) nkwL efermi nedos deltae ismear sigma idir
          jdir) eps l = .error e) ∧
      ((heapLoop (epsddStepHeap erf nbands nk nspin efermi nedos deltae
          ismear sigma idir jdir eigsShiftId nkwId epsddId) h l).2 = .ok () →
        ∃ out, accumLoop (epsddStep erf nspin (cderAt cderL nbands nk nspin)
          (eigsAt eigsL nk nspin) nkwL efermi nedos deltae ismear sigma idir
          jdir) eps l = .ok out ∧
        readA (heapLoop (epsddStepHeap erf nbands nk nspin efermi nedos
          deltae ismear sigma idir jdir eigsShiftId nkwId epsddId) h l).1
          epsddId = .cA out) := by
  intro l
  induction l with
  | nil =>
    intro _ h eps h0 h1 hES hNK hEps hepsLt hlen1 hlenES hlenNK hne0 hne1
      hneES hneNK
    refine ⟨⟨le_refl _, fun i _ _ => rfl⟩, ?_, ?_⟩
    · intro e he
      exact absurd he (by simp [heapLoop])
    · intro _
      exact ⟨eps, rfl, hEps⟩
  | cons x xs ih =>
    intro hsub h eps h0 h1 hES hNK hEps hepsLt hlen1 hlenES hlenNK hne0 hne1
      hneES hneNK
    have hx := epsddStepHeap_spec erf nbands nk nspin efermi nedos deltae
      ismear sigma idir jdir eigsShiftId nkwId epsddId cderL eigsL nkwL eps h
      x (hsub x (List.mem_cons_self x xs)) hlenE h0 h1 hES hNK hEps hepsLt
    simp only [heapLoop]
    cases hst : epsddStepHeap erf nbands nk nspin efermi nedos deltae ismear
        sigma idir jdir eigsShiftId nkwId epsddId h x with
    | mk h2 r2 =>
      rw [hst] at hx
      dsimp only at hx
      obtain ⟨pst, est, ost⟩ := hx
      cases r2 with
      | error e =>
        dsimp only
        refine ⟨pst, ?_, ?_⟩
        · intro e2 he
          injection he with hq
          subst hq
          simp only [accumLoop, est e rfl]
        · intro hcon
          exact absurd hcon (by simp)
      | ok u =>
        cases u
        obtain ⟨eps2, hpure2, hread2⟩ := ost rfl
        dsimp only
        have hIH := ih (fun q hq => hsub q (List.mem_cons_of_mem x hq)) h2
          eps2
          (by rw [pst.2 0 (by omega) hne0, h0])
          (by rw [pst.2 1 (by omega) hne1, h1])
          (by rw [pst.2 eigsShiftId (by omega) hneES, hES])
          (by rw [pst.2 nkwId (by omega) hneNK, hNK])
          hread2
          (lt_of_lt_of_le hepsLt pst.1) (lt_of_lt_of_le hlen1 pst.1)
          (lt_of_lt_of_le hlenES pst.1) (lt_of_lt_of_le hlenNK pst.1)
          hne0 hne1 hneES hneNK
        obtain ⟨pIH, eIH, oIH⟩ := hIH
        refine ⟨presExcept_trans pst (presExcept_mono pst.1 pIH), ?_, ?_⟩
        · intro e he
          simp only [accumLoop, hpure2]
          exact eIH e he
        · intro hok
          obtain ⟨out, hout, hreadOut⟩ := oIH hok
          refine ⟨out, ?_, hreadOut⟩
          simp only [accumLoop, hpure2]
          exact hout

theorem pairHeap_spec (erf : ℝ → ℝ) (nbands nk nspin : ℕ) (efermi : ℝ)
    (nedos : ℤ) (deltae : ℝ) (ismear : ℤ) (sigma : ℝ)
    (eigsShiftId nkwId egridLen : ℕ) (cderL : List ℂ) (eigsL nkwL : List ℝ)
    (hlenE : eigsL.length = nbands * nk * nspin) (h : Heap) (p : ℕ × ℕ)
    (h0 : readA h 0 = .cA cderL) (h1 : readA h 1 = .rA eigsL)
    (hES : readA h eigsShiftId = .rA (eigsL.map fun t => t - efermi))
    (hNK : readA h nkwId = .rA nkwL)
    (hlen1 : 1 < List.length h) (hlenES : eigsShiftId < List.length h)
    (hlenNK : nkwId < List.length h) :
    presBelow (List.length h) h
      (pairHeap erf nbands nk nspin efermi nedos deltae ismear sigma
        eigsShiftId nkwId egridLen h p).1 ∧
    List.length h + 1 ≤ List.length (pairHeap erf nbands nk nspin efermi
      nedos deltae ismear sigma eigsShiftId nkwId egridLen h p).1 ∧
    (∀ sid, (pairHeap erf nbands nk nspin efermi nedos deltae ismear sigma
        eigsShiftId nkwId egridLen h p).2 = .ok sid →
      sid = List.length h ∧
      ∃ s, epsddFor erf nbands nk nspin (cderAt cderL nbands nk nspin)
        (eigsAt eigsL nk nspin) nkwL efermi nedos deltae ismear sigma
        egridLen p.1 p.2 = .ok s ∧
      readA (pairHeap erf nbands nk nspin efermi nedos deltae ismear sigma
        eigsShiftId nkwId egridLen h p).1 sid = .cA s) := by
  simp only [pairHeap, allocA]
  have hL := heapLoop_spec erf nbands nk nspin efermi nedos deltae ismear
    sigma p.1 p.2 eigsShiftId nkwId (List.length h) cderL eigsL nkwL hlenE
    (ndindex4 nbands nbands nk nspin) (fun q hq => hq)
    (List.append h [.cA (List.replicate egridLen 0)])
    (List.replicate egridLen 0)
    (by rw [readA_append_lt h _ 0 (by omega)]; exact h0)
    (by rw [readA_append_lt h _ 1 (by omega)]; exact h1)
    (by rw [readA_append_lt h _ eigsShiftId hlenES]; exact hES)
    (by rw [readA_append_lt h _ nkwId hlenNK]; exact hNK)
    (readA_append_self h _)
    (by simp) (by simp; omega) (by simp; omega) (by simp; omega)
    (by omega) (by omega) (by omega) (by omega)
  obtain ⟨pL, eL, oL⟩ := hL
  cases hlp : heapLoop (epsddStepHeap erf nbands nk nspin efermi nedos deltae
      ismear sigma p.1 p.2 eigsShiftId nkwId (List.length h))
      (List.append h [.cA (List.replicate egridLen 0)])
      (ndindex4 nbands nbands nk nspin) with
  | mk h3 r3 =>
    rw [hlp] at pL eL oL
    dsimp only at pL eL oL
    have hpres : presBelow (List.length h) h h3 := by
      refine presBelow_trans (presBelow_alloc (List.length h) h
        (NpArr.cA (List.replicate egridLen 0)) (le_refl _)) ?_
      refine presBelow_of_presExcept (le_refl _) ?_
      exact presExcept_mono (by simp) pL
    have hlen3 : List.length h + 1 ≤ List.length h3 := by
      have := pL.1
      simp at this
      omega
    cases r3 with
    | error e =>
      dsimp only
      exact ⟨hpres, hlen3, fun sid hsid => absurd hsid (by simp)⟩
    | ok u =>
      cases u
      dsimp only
      obtain ⟨out, hout, hreadOut⟩ := oL rfl
      refine ⟨hpres, hlen3, ?_⟩
      intro sid hsid
      have hsid2 : List.length h = sid := by
        injection hsid
      subst hsid2
      refine ⟨rfl, out, ?_, hreadOut⟩
      rw [epsddFor]
      exact hout

theorem pairsLoopHeap_spec (erf : ℝ → ℝ) (nbands nk nspin : ℕ) (efermi : ℝ)
    (nedos : ℤ) (deltae : ℝ) (ismear : ℤ) (sigma : ℝ)
    (eigsShiftId nkwId egridLen : ℕ) (cderL : List ℂ) (eigsL nkwL : List ℝ)
    (hlenE : eigsL.length = nbands * nk * nspin) :
    ∀ (ps : List (ℕ × ℕ)) (h : Heap),
      readA h 0 = .cA cderL → readA h 1 = .rA eigsL →
      readA h eigsShiftId = .rA (eigsL.map fun t => t - efermi) →
      readA h nkwId = .rA nkwL →
      1 < List.length h → eigsShiftId < List.length h →
      nkwId < List.length h →
      presBelow (List.length h) h
        (pairsLoopHeap (pairHeap erf nbands nk nspin efermi nedos deltae
          ismear sigma eigsShiftId nkwId egridLen) h ps).1 ∧
      (∀ sids, (pairsLoopHeap (pairHeap erf nbands nk nspin efermi nedos
          deltae ismear sigma eigsShiftId nkwId egridLen) h ps).2 =
          .ok sids →
        sids.length = ps.length ∧ List.Chain' (· < ·) sids ∧
        (∀ s ∈ sids, List.length h ≤ s) ∧
        ∀ k, k < ps.length → ∃ s,
          epsddFor erf nbands nk nspin (cderAt cderL nbands nk nspin)
            (eigsAt eigsL nk nspin) nkwL efermi nedos deltae ismear sigma
            egridLen (ps.getD k (0, 0)).1 (ps.getD k (0, 0)).2 = .ok s ∧
          readA (pairsLoopHeap (pairHeap erf nbands nk nspin efermi nedos
            deltae ismear sigma eigsShiftId nkwId egridLen) h ps).1
            (sids.getD k 0) = .cA s) := by
  intro ps
  induction ps with
  | nil =>
    intro h _ _ _ _ _ _ _
    refine ⟨presBelow_refl _ _, ?_⟩
    intro sids hsids
    have hnil : ([] : List ℕ) = sids := by injection hsids
    subst hnil
    exact ⟨rfl, List.chain'_nil, by simp, fun k hk => absurd hk (by simp)⟩
  | cons p ps ih =>
    intro h h0 h1 hES hNK hlen1 hlenES hlenNK
    have hP := pairHeap_spec erf nbands nk nspin efermi nedos deltae ismear
      sigma eigsShiftId nkwId egridLen cderL eigsL nkwL hlenE h p h0 h1 hES
      hNK hlen1 hlenES hlenNK
    simp only [pairsLoopHeap]
    cases hph : pairHeap erf nbands nk nspin efermi nedos deltae ismear sigma
        eigsShiftId nkwId egridLen h p with
    | mk h2 r2 =>
      rw [hph] at hP
      dsimp only at hP
      obtain ⟨pP, lenP, okP⟩ := hP
      cases r2 with
      | error e =>
        dsimp only
        exact ⟨pP, fun sids hsids => absurd hsids (by simp)⟩
      | ok sid =>
        dsimp only
        obtain ⟨hsid, s0, hs0, hread0⟩ := okP sid rfl
        have hIH := ih h2
          (by rw [pP.2 0 (by omega), h0])
          (by rw [pP.2 1 (by omega), h1])
          (by rw [pP.2 eigsShiftId hlenES, hES])
          (by rw [pP.2 nkwId hlenNK, hNK])
          (lt_of_lt_of_le hlen1 pP.1) (lt_of_lt_of_le hlenES pP.1)
          (lt_of_lt_of_le hlenNK pP.1)
        obtain ⟨pIH, okIH⟩ := hIH
        cases hplp : pairsLoopHeap (pairHeap erf nbands nk nspin efermi nedos
            deltae ismear sigma eigsShiftId nkwId egridLen) h2 ps with
        | mk h3 r3 =>
          rw [hplp] at pIH okIH
          dsimp only at pIH okIH
          have hpres : presBelow (List.length h) h h3 :=
            presBelow_trans pP (presBelow_mono pP.1 pIH)
          cases r3 with
          | error e =>
            dsimp only
            exact ⟨hpres, fun sids hsids => absurd hsids (by simp)⟩
          | ok rest =>
            dsimp only
            obtain ⟨hlenR, hchainR, hgeR, hperkR⟩ := okIH rest rfl
            refine ⟨hpres, ?_⟩
            intro sids hsids
            have hcons : sid :: rest = sids := by injection hsids
            subst hcons
            have hsidlt : sid < List.length h2 := by omega
            refine ⟨by simp [hlenR], ?_, ?_, ?_⟩
            · refine List.chain'_cons'.mpr ⟨?_, hchainR⟩
              intro b hb
              have hbR : b ∈ rest := List.mem_of_mem_head? hb
              have := hgeR b hbR
              omega
            · intro s hs
              rcases List.mem_cons.mp hs with hs | hs
              · omega
              · have := hgeR s hs
                omega
            · intro k hk
              cases k with
              | zero =>
                refine ⟨s0, hs0, ?_⟩
                show readA h3 sid = .cA s0
                rw [pIH.2 sid hsidlt, hread0]
              | succ k2 =>
                have hk2 : k2 < ps.length := by simpa using hk
                obtain ⟨s, hsp, hsr⟩ := hperkR k2 hk2
                exact ⟨s, hsp, hsr⟩

-- Claim C10 ----------------------------------------------------------------

/-- C10: epsilon_imag never mutates its inputs.  In the heap model (cder at
id 0, eigs at id 1, kweights at id 2; every in-place numpy operation is a
heap write), the three input cells are identical before and after running
epsilon_imag_heap, whether it completes or raises; normalization and the
Fermi shift write only freshly allocated cells.  On success the 9 yielded
accumulators live at pairwise distinct fresh ids (strictly increasing, none
an input id), and the final contents of each yielded cell equal the pure
per-pair accumulation epsddFor - so no accumulator is written after it is
yielded. -/
theorem epsilon_imag_no_input_mutation (erf : ℝ → ℝ) (nbands nk nspin : ℕ)
    (cderL : List ℂ) (eigsL kwL : List ℝ) (efermi : ℝ) (nedos : ℤ)
    (deltae : ℝ) (ismear : ℤ) (sigma : ℝ)
    (hlenE : eigsL.length = nbands * nk * nspin) :
    (readA (epsilon_imag_heap erf nbands nk nspin efermi nedos deltae ismear
        sigma [.cA cderL, .rA eigsL, .rA kwL]).1 0 = .cA cderL ∧
      readA (epsilon_imag_heap erf nbands nk nspin efermi nedos deltae ismear
        sigma [.cA cderL, .rA eigsL, .rA kwL]).1 1 = .rA eigsL ∧
      readA (epsilon_imag_heap erf nbands nk nspin efermi nedos deltae ismear
        sigma [.cA cderL, .rA eigsL, .rA kwL]).1 2 = .rA kwL) ∧
    (∀ gid sids, (epsilon_imag_heap erf nbands nk nspin efermi nedos deltae
        ismear sigma [.cA cderL, .rA eigsL, .rA kwL]).2 = .ok (gid, sids) →
      sids.length = 9 ∧ List.Chain' (· < ·) sids ∧ (∀ s ∈ sids, 3 ≤ s) ∧
      ∀ k, k < 9 → ∃ s,
        epsddFor erf nbands nk nspin (cderAt cderL nbands nk nspin)
          (eigsAt eigsL nk nspin) (kwL.map fun w => w / kwL.sum) efermi nedos
          deltae ismear sigma (arangeLen 0 (nedos * deltae) deltae)
          (dirPairs.getD k (0, 0)).1 (dirPairs.getD k (0, 0)).2 = .ok s ∧
        readA (epsilon_imag_heap erf nbands nk nspin efermi nedos deltae
          ismear sigma [.cA cderL, .rA eigsL, .rA kwL]).1
          (sids.getD k 0) = .cA s) := by
  cases harange : arange 0 ((nedos : ℝ) * deltae) deltae with
  | error e =>
    have hEIH : epsilon_imag_heap erf nbands nk nspin efermi nedos deltae
        ismear sigma [.cA cderL, .rA eigsL, .rA kwL] =
        ([NpArr.cA cderL, NpArr.rA eigsL, NpArr.rA kwL,
          NpArr.rA (kwL.map fun w => w / kwL.sum)], .error e) := by
      simp only [epsilon_imag_heap, allocA]
      rw [harange]
      rfl
    rw [hEIH]
    refine ⟨⟨rfl, rfl, rfl⟩, ?_⟩
    intro gid sids hcon
    exact absurd hcon (by simp)
  | ok eg =>
    have heglen : eg.length = arangeLen 0 ((nedos : ℝ) * deltae) deltae := by
      by_cases hz : deltae = 0
      · rw [arange, if_pos hz] at harange
        exact absurd harange (by simp)
      · rw [arange_ok _ _ _ hz] at harange
        injection harange with hq
        rw [← hq]
        simp
    have hEIH : epsilon_imag_heap erf nbands nk nspin efermi nedos deltae
        ismear sigma [.cA cderL, .rA eigsL, .rA kwL] =
        (match pairsLoopHeap (pairHeap erf nbands nk nspin efermi nedos
            deltae ismear sigma 5 3 eg.length)
            [NpArr.cA cderL, NpArr.rA eigsL, NpArr.rA kwL,
             NpArr.rA (kwL.map fun w => w / kwL.sum), NpArr.rA eg,
             NpArr.rA (eigsL.map fun t => t - efermi)] dirPairs with
          | (h4, .ok sids) => (h4, .ok (4, sids))
          | (h4, .error e) => (h4, .error e)) := by
      simp only [epsilon_imag_heap, allocA]
      rw [harange]
      rfl
    rw [hEIH]
    have hPL := pairsLoopHeap_spec erf nbands nk nspin efermi nedos deltae
      ismear sigma 5 3 eg.length cderL eigsL
      (kwL.map fun w => w / kwL.sum) hlenE dirPairs
      [NpArr.cA cderL, NpArr.rA eigsL, NpArr.rA kwL,
       NpArr.rA (kwL.map fun w => w / kwL.sum), NpArr.rA eg,
       NpArr.rA (eigsL.map fun t => t - efermi)]
      rfl rfl rfl rfl (by norm_num) (by norm_num) (by norm_num)
    obtain ⟨pPL, okPL⟩ := hPL
    cases hplp : pairsLoopHeap (pairHeap erf nbands nk nspin efermi nedos
        deltae ismear sigma 5 3 eg.length)
        [NpArr.cA cderL, NpArr.rA eigsL, NpArr.rA kwL,
         NpArr.rA (kwL.map fun w => w / kwL.sum), NpArr.rA eg,
         NpArr.rA (eigsL.map fun t => t - efermi)] dirPairs with
    | mk h4 r4 =>
      rw [hplp] at pPL okPL
      dsimp only at pPL okPL
      have hlen6 : List.length [NpArr.cA cderL, NpArr.rA eigsL, NpArr.rA kwL,
          NpArr.rA (kwL.map fun w => w / kwL.sum), NpArr.rA eg,
          NpArr.rA (eigsL.map fun t => t - efermi)] = 6 := rfl
      rw [hlen6] at pPL
      have hback0 : readA h4 0 = NpArr.cA cderL := by
        rw [pPL.2 0 (by omega)]
        rfl
      have hback1 : readA h4 1 = NpArr.rA eigsL := by
        rw [pPL.2 1 (by omega)]
        rfl
      have hback2 : readA h4 2 = NpArr.rA kwL := by
        rw [pPL.2 2 (by omega)]
        rfl
      cases r4 with
      | error e =>
        dsimp only
        exact ⟨⟨hback0, hback1, hback2⟩,
          fun gid sids hcon => absurd hcon (by simp)⟩
      | ok sids0 =>
        dsimp only
        obtain ⟨hL9, hchain, hge, hperk⟩ := okPL sids0 rfl
        rw [hlen6] at hge
        refine ⟨⟨hback0, hback1, hback2⟩, ?_⟩
        intro gid sids hok
        have hq : ((4 : ℕ), sids0) = (gid, sids) := by injection hok
        have hsids : sids0 = sids := ((Prod.mk.injEq _ _ _ _).mp hq).2
        subst hsids
        refine ⟨by rw [hL9]; rfl, hchain, ?_, ?_⟩
        · intro s hs
          have := hge s hs
          omega
        · intro k hk
          have hk9 : k < dirPairs.length := by rw [dirPairs_eq]; simpa using hk
          obtain ⟨s, hsp, hsr⟩ := hperk k hk9
          rw [heglen] at hsp
          exact ⟨s, hsp, hsr⟩

/-- C10 witness: the frame theorem instantiated at a concrete single-band,
single-k-point, single-spin input. -/
theorem epsilon_imag_no_input_mutation_witness :
    (([(0 : ℝ)] : List ℝ).length = 1 * 1 * 1) ∧
    readA (epsilon_imag_heap (fun _ => 0) 1 1 1 0 1 1 (-2) 1
      [.cA [0, 0, 0], .rA [0], .rA [1]]).1 0 = .cA [0, 0, 0] ∧
    readA (epsilon_imag_heap (fun _ => 0) 1 1 1 0 1 1 (-2) 1
      [.cA [0, 0, 0], .rA [0], .rA [1]]).1 1 = .rA [0] ∧
    readA (epsilon_imag_heap (fun _ => 0) 1 1 1 0 1 1 (-2) 1
      [.cA [0, 0, 0], .rA [0], .rA [1]]).1 2 = .rA [1] :=
  ⟨by simp,
   (epsilon_imag_no_input_mutation (fun _ => 0) 1 1 1 [0, 0, 0] [0] [1] 0 1 1
     (-2) 1 (by simp)).1.1,
   (epsilon_imag_no_input_mutation (fun _ => 0) 1 1 1 [0, 0, 0] [0] [1] 0 1 1
     (-2) 1 (by simp)).1.2.1,
   (epsilon_imag_no_input_mutation (fun _ => 0) 1 1 1 [0, 0, 0] [0] [1] 0 1 1
     (-2) 1 (by simp)).1.2.2⟩

end

end Optics
